import Mathlib

/-!
# A verification development for `lsh` (src/main.c)

The shell is a read / split / dispatch loop.  The definitions below embed
`src/main.c` function by function; libc and the kernel appear as explicit
environment data (an allocator oracle, the outcome of `fork`, the stream of
`waitpid` results, the outcome of `chdir`, the stream of `getline` results).

Platform assumptions (Linux, LP64): `int` is 32 bits wide, `size_t` is 64 bits
wide, `sizeof(char *)` is 8.  Signed overflow is undefined behaviour in C and
is reported as its own outcome instead of being given a value.
-/

namespace Lsh

/-! ## Bytes, C strings and the line buffer -/

/-- The terminator of a C string, written `'\0'` in C. -/
def NUL : Char := Char.ofNat 0

/-- The characters of `LSH_TOK_DELIM`, that is `" \t\r\n\a"`. -/
def LSH_TOK_DELIM : List Char := [' ', '\t', '\r', '\n', Char.ofNat 7]

/-- The constant `LSH_TOK_BUFSIZE`. -/
def LSH_TOK_BUFSIZE : Nat := 64

/-- The largest value of a C `int`. -/
def INT_MAX : Nat := 2147483647

/-- The value of `sizeof(char *)`. -/
def SIZEOF_PTR : Nat := 8

/-- The modulus of `size_t` arithmetic. -/
def SIZE_MOD : Nat := 2 ^ 64

/-- The byte stored at address `p` of a buffer.  A buffer is always followed
by its terminator, so a read at or past the end yields `NUL`. -/
def peek (mem : List Char) (p : Nat) : Char := mem.getD p NUL

/-- The C string that starts at address `p`: the bytes before the first `NUL`. -/
def cstr_at (mem : List Char) (p : Nat) : List Char :=
  (mem.drop p).takeWhile (fun c => decide (c ≠ NUL))

/-- The text of a line buffer: the C string at its start. -/
def cstr (mem : List Char) : List Char := cstr_at mem 0

/-! ## libc: `strspn`, `strcspn`, `strtok` (ISO C 7.24.5.8) -/

/-- The C function `strspn(mem + s, LSH_TOK_DELIM)`: the length of the longest
run of delimiter bytes starting at `s` (the terminator is never a delimiter). -/
def strspn (mem : List Char) (s : Nat) : Nat :=
  ((mem.drop s).takeWhile (fun c => decide (c ∈ LSH_TOK_DELIM))).length

/-- The C function `strcspn(mem + s, LSH_TOK_DELIM)`: the length of the longest
run starting at `s` of bytes that are neither a delimiter nor the terminator. -/
def strcspn (mem : List Char) (s : Nat) : Nat :=
  ((mem.drop s).takeWhile (fun c => decide (c ≠ NUL ∧ c ∉ LSH_TOK_DELIM))).length

/-- What `strtok` keeps between calls: the (mutated) buffer and the saved
pointer from which the next search starts. -/
structure StrtokState where
  mem : List Char
  olds : Nat
deriving DecidableEq, Repr

/-- The C function `strtok(s, LSH_TOK_DELIM)`, where `s = none` is the `NULL`
argument.  It skips delimiters, returns `NULL` at the terminator, and
otherwise overwrites the delimiter that ends the token with `NUL`. -/
def strtok (st : StrtokState) (s : Option Nat) : Option Nat × StrtokState :=
  let s0 := match s with
    | some p => p
    | none => st.olds
  let s1 := s0 + strspn st.mem s0
  if peek st.mem s1 = NUL then
    (none, { st with olds := s1 })
  else
    let e := s1 + strcspn st.mem s1
    if peek st.mem e = NUL then
      (some s1, { st with olds := e })
    else
      (some s1, { mem := st.mem.set e NUL, olds := e + 1 })

/-! ## The token array -/

/-- One slot of the `char **tokens` array: not yet written, `NULL`, or a
pointer into the line buffer. -/
inductive Slot where
  | junk
  | null
  | ptr (p : Nat)
deriving DecidableEq, Repr

/-- The call `malloc(bytes)` for an array of pointers: `none` when the
allocator refuses, otherwise `bytes / sizeof(char *)` unwritten slots. -/
def malloc (alloc : Nat → Bool) (bytes : Nat) : Option (List Slot) :=
  if alloc bytes then some (List.replicate (bytes / SIZEOF_PTR) Slot.junk) else none

/-- The call `realloc(arr, bytes)`: `none` when the allocator refuses,
otherwise the old contents followed by unwritten slots. -/
def realloc (alloc : Nat → Bool) (arr : List Slot) (bytes : Nat) : Option (List Slot) :=
  if alloc bytes then
    some (arr.take (bytes / SIZEOF_PTR) ++
      List.replicate (bytes / SIZEOF_PTR - arr.length) Slot.junk)
  else none

/-- The store `arr[i] = v`; `none` when `i` is outside the allocation. -/
def store (arr : List Slot) (i : Nat) (v : Slot) : Option (List Slot) :=
  if i < arr.length then some (arr.set i v) else none

/-- How a call of `lsh_split_line` ends. -/
inductive SplitResult where
  /-- It returns: the token array, the final `bufsize`, the mutated line. -/
  | returned (tokens : List Slot) (bufsize : Nat) (line : List Char)
  /-- It prints "lsh: allocation error" and calls `exit(EXIT_FAILURE)`. -/
  | alloc_error
  /-- The addition `bufsize += LSH_TOK_BUFSIZE` or `position++` leaves the range of `int`. -/
  | int_overflow
  /-- A store into the token array at an index outside the allocation. -/
  | bad_store
deriving DecidableEq, Repr

/-- The `while (token != NULL)` loop of `lsh_split_line` together with the two
statements after it.  One unit of fuel is one test of the loop condition;
`none` means the fuel ran out. -/
def split_loop (alloc : Nat → Bool) : Nat → StrtokState → Option Nat → List Slot → Nat → Nat →
    Option SplitResult
  | 0, _, _, _, _, _ => none
  | fuel + 1, st, token, tokens, bufsize, position =>
    match token with
    | none =>
      -- tokens[position] = NULL; return tokens;
      match store tokens position Slot.null with
      | none => some SplitResult.bad_store
      | some tokens1 => some (SplitResult.returned tokens1 bufsize st.mem)
    | some tok =>
      -- tokens[position++] = token;
      match store tokens position (Slot.ptr tok) with
      | none => some SplitResult.bad_store
      | some tokens1 =>
        if INT_MAX < position + 1 then some SplitResult.int_overflow
        else if bufsize ≤ position + 1 then
          -- bufsize += LSH_TOK_BUFSIZE; realloc
          if INT_MAX < bufsize + LSH_TOK_BUFSIZE then some SplitResult.int_overflow
          else
            match realloc alloc tokens1 ((bufsize + LSH_TOK_BUFSIZE) * SIZEOF_PTR % SIZE_MOD) with
            | none => some SplitResult.alloc_error
            | some tokens2 =>
              let r := strtok st none
              split_loop alloc fuel r.2 r.1 tokens2 (bufsize + LSH_TOK_BUFSIZE) (position + 1)
        else
          let r := strtok st none
          split_loop alloc fuel r.2 r.1 tokens1 bufsize (position + 1)

/-- The function `lsh_split_line(line)`.  Every iteration but the last
consumes at least one byte of the line, so `line.length + 1` tests of the
loop condition are enough (see `split_loop_result`). -/
def lsh_split_line (alloc : Nat → Bool) (line : List Char) : Option SplitResult :=
  match malloc alloc (LSH_TOK_BUFSIZE * SIZEOF_PTR % SIZE_MOD) with
  | none => some SplitResult.alloc_error
  | some tokens =>
    let r := strtok { mem := line, olds := 0 } (some 0)
    split_loop alloc (line.length + 1) r.2 r.1 tokens LSH_TOK_BUFSIZE 0

/-- How a consumer reads a `char **` argument vector against the line buffer:
the C strings pointed to by the slots before the first `NULL`.  `none` when an
unwritten slot or the end of the allocation comes before any `NULL`. -/
def read_argv (mem : List Char) : List Slot → Option (List (List Char))
  | [] => none
  | Slot.junk :: _ => none
  | Slot.null :: _ => some []
  | Slot.ptr p :: rest =>
    match read_argv mem rest with
    | none => none
    | some ts => some (cstr_at mem p :: ts)

/-- The token sequence a call of `lsh_split_line` hands to its caller. -/
def split_tokens (alloc : Nat → Bool) (line : List Char) : Option (List (List Char)) :=
  match lsh_split_line alloc line with
  | some (SplitResult.returned tokens _ mem) => read_argv mem tokens
  | _ => none

/-! ## The specification of a token sequence, in the words of the spec -/

/-- The half-open range `[i, j)` of `line` is a token in the sense of the
glossary: a non-empty substring without a delimiter that cannot be extended
to either side. -/
def IsMaximalToken (line : List Char) (i j : Nat) : Prop :=
  i < j ∧ j ≤ line.length ∧
  (∀ k, k < j → i ≤ k → peek line k ∉ LSH_TOK_DELIM) ∧
  (i = 0 ∨ peek line (i - 1) ∈ LSH_TOK_DELIM) ∧
  (j = line.length ∨ peek line j ∈ LSH_TOK_DELIM)

instance (line : List Char) (i j : Nat) : Decidable (IsMaximalToken line i j) := by
  unfold IsMaximalToken; infer_instance

/-- All pairs `(i, j)` with `i, j ≤ n`, by increasing `i`, then increasing `j`. -/
def all_ranges (n : Nat) : List (Nat × Nat) :=
  (List.range (n + 1)).flatMap (fun i => (List.range (n + 1)).map (fun j => (i, j)))

/-- The ranges of the tokens of `line`, from left to right. -/
def spec_ranges (line : List Char) : List (Nat × Nat) :=
  (all_ranges line.length).filter (fun r => decide (IsMaximalToken line r.1 r.2))

/-- The substring `[r.1, r.2)` of `line`. -/
def slice (line : List Char) (r : Nat × Nat) : List Char :=
  (line.drop r.1).take (r.2 - r.1)

/-- The token sequence of `line` according to the spec: its maximal non-empty
delimiter-free substrings, from left to right. -/
def spec_tokens (line : List Char) : List (List Char) :=
  (spec_ranges line).map (slice line)

/-! ## The process and its environment -/

/-- One write to the error stream: literal text, or a `perror(pfx)` line whose
tail is the message for the current `errno`. -/
inductive ErrOut where
  | text (s : List Char)
  | perror (pfx : List Char)
deriving DecidableEq, Repr

/-- Which function of the dispatch table, or the launcher, was entered, and
with which argument vector.  This log is ghost state: it records calls so that
statements about them can be made. -/
inductive Call where
  | cd (args : List (List Char))
  | help (args : List (List Char))
  | exit (args : List (List Char))
  | launch (args : List (List Char))
deriving DecidableEq, Repr

/-- A system call made by the shell (ghost state, as for `Call`). -/
inductive Sys where
  | fork
  | waitpid
  | chdir (path : List Char)
  | execvp (args : List (List Char))
deriving DecidableEq, Repr

/-- The observable state of the shell process. -/
structure World where
  /-- The working directory of the process. -/
  cwd : List Char
  /-- Everything written to standard output so far. -/
  out : List Char
  /-- Everything written to standard error so far. -/
  err : List ErrOut
  /-- The handlers and the launcher entered so far. -/
  calls : List Call
  /-- The system calls made so far. -/
  sys : List Sys
  /-- The number of `fork` calls made so far; it indexes the environment. -/
  forks : Nat
deriving DecidableEq, Repr

/-- What `fork()` returns: `-1`, the child's pid in the parent, `0` in the child. -/
inductive ForkResult where
  | fail
  | parent (pid : Nat)
  | child
deriving DecidableEq, Repr

/-- What one call `waitpid(pid, &status, WUNTRACED)` reports: `-1`, or a status
for which `WIFEXITED`, `WIFSIGNALED` or `WIFSTOPPED` holds. -/
inductive WaitResult where
  | error
  | exited (code : Nat)
  | signaled (sig : Nat)
  | stopped (sig : Nat)
deriving DecidableEq, Repr

/-- What one call of `getline` on standard input reports: a line buffer, or
`-1` with the end-of-file indicator set, or `-1` without it. -/
inductive ReadResult where
  | line (buf : List Char)
  | eof
  | error
deriving DecidableEq, Repr

/-- The environment of the process: libc and the kernel. -/
structure Env where
  /-- Whether an allocation of the given number of bytes succeeds. -/
  alloc : Nat → Bool
  /-- The call `chdir(path)` from working directory `cwd`: the new working
  directory, or `none` when it fails (the working directory is then unchanged). -/
  chdir : List Char → List Char → Option (List Char)
  /-- The result of the `n`-th call of `fork`. -/
  fork : Nat → ForkResult
  /-- The results of the successive `waitpid` calls on the child of the `n`-th `fork`. -/
  waits : Nat → List WaitResult
  /-- Whether `execvp` can execute the program of the given argument vector. -/
  execvp : List (List Char) → Bool

/-- How a function of the shell ends. -/
inductive Res (α : Type) where
  /-- It returns `a`. -/
  | ret (a : α) (w : World)
  /-- The process ends through `exit(code)` or the return from `main`. -/
  | exit (code : Int) (w : World)
  /-- The process (the child of a `fork`) now runs another program. -/
  | exec (args : List (List Char)) (w : World)
  /-- The process stays blocked in a system call. -/
  | blocked (w : World)
  /-- The behaviour is undefined in C. -/
  | undefined (w : World)
deriving DecidableEq, Repr

/-- The constant `EXIT_SUCCESS`. -/
def EXIT_SUCCESS : Int := 0

/-- The constant `EXIT_FAILURE`. -/
def EXIT_FAILURE : Int := 1

/-- The call `printf` or `fprintf(stdout, ...)` of the text `s`. -/
def World.printf (w : World) (s : List Char) : World := { w with out := w.out ++ s }

/-- The call `fprintf(stderr, ...)` of the text `s`. -/
def World.eprintf (w : World) (s : List Char) : World :=
  { w with err := w.err ++ [ErrOut.text s] }

/-- The call `perror(pfx)`. -/
def World.perror (w : World) (pfx : List Char) : World :=
  { w with err := w.err ++ [ErrOut.perror pfx] }

/-- Record the entry into a handler or the launcher. -/
def World.enter (w : World) (c : Call) : World := { w with calls := w.calls ++ [c] }

/-- Record a system call. -/
def World.syscall (w : World) (c : Sys) : World := { w with sys := w.sys ++ [c] }

/-- The C function `strcmp` on the contents of two C strings; only the sign
of the result is specified. -/
def strcmp : List Char → List Char → Int
  | [], [] => 0
  | [], _ :: _ => -1
  | _ :: _, [] => 1
  | a :: as, b :: bs => if a = b then strcmp as bs else if a.toNat < b.toNat then -1 else 1

/-! ## The shell: `src/main.c` -/

/-- The table `builtin_str`. -/
def builtin_str : List (List Char) := ["cd".toList, "help".toList, "exit".toList]

/-- The function `lsh_num_builtins`. -/
def lsh_num_builtins : Nat := builtin_str.length

/-- The function `lsh_read_line`, given what `getline` reports. -/
def lsh_read_line (r : ReadResult) (w : World) : Res (List Char) :=
  match r with
  | ReadResult.line buf => Res.ret buf w
  | ReadResult.eof => Res.exit EXIT_SUCCESS w
  | ReadResult.error => Res.exit EXIT_FAILURE (w.perror "lsh: getline".toList)

/-- The `do ... while` loop of `lsh_launch` in the parent, over the results
of the successive `waitpid` calls. -/
def wait_loop : List WaitResult → World → Res Int
  | [], w => Res.blocked (w.syscall Sys.waitpid)
  | WaitResult.error :: _, w => Res.ret 1 ((w.syscall Sys.waitpid).perror "lsh: waitpid".toList)
  | WaitResult.exited _ :: _, w => Res.ret 1 (w.syscall Sys.waitpid)
  | WaitResult.signaled _ :: _, w => Res.ret 1 (w.syscall Sys.waitpid)
  | WaitResult.stopped _ :: rest, w => wait_loop rest (w.syscall Sys.waitpid)

/-- The function `lsh_launch`. -/
def lsh_launch (env : Env) (args : List (List Char)) (w : World) : Res Int :=
  let w0 := w.enter (Call.launch args)
  let w1 := { w0.syscall Sys.fork with forks := w0.forks + 1 }
  match env.fork w.forks with
  | ForkResult.child =>
    let w2 := w1.syscall (Sys.execvp args)
    if env.execvp args then Res.exec args w2
    else Res.exit EXIT_FAILURE (w2.perror "lsh".toList)
  | ForkResult.fail => Res.ret 1 (w1.perror "lsh".toList)
  | ForkResult.parent _ => wait_loop (env.waits w.forks) w1

/-- The function `lsh_cd`. -/
def lsh_cd (env : Env) (args : List (List Char)) (w : World) : Res Int :=
  let w0 := w.enter (Call.cd args)
  match args.get? 1 with
  | none => Res.ret 1 (w0.eprintf "lsh: expected argument to \"cd\"\n".toList)
  | some path =>
    let w1 := w0.syscall (Sys.chdir path)
    match env.chdir w.cwd path with
    | none => Res.ret 1 (w1.perror "lsh".toList)
    | some dir => Res.ret 1 { w1 with cwd := dir }

/-- The `for` loop of `lsh_help`: one `printf("  %s\n", name)` for each name. -/
def help_names : List (List Char) → World → World
  | [], w => w
  | name :: rest, w => help_names rest (w.printf ("  ".toList ++ name ++ "\n".toList))

/-- The function `lsh_help`. -/
def lsh_help (_env : Env) (args : List (List Char)) (w : World) : Res Int :=
  let w0 := w.enter (Call.help args)
  let w1 := w0.printf "Simple Shell (lsh)\n".toList
  let w2 := w1.printf "Type program names and arguments, then hit enter.\n".toList
  let w3 := w2.printf "Built-in commands:\n".toList
  let w4 := help_names builtin_str w3
  Res.ret 1 (w4.printf "Use the man command for information on other programs.\n".toList)

/-- The function `lsh_exit`. -/
def lsh_exit (_env : Env) (args : List (List Char)) (w : World) : Res Int :=
  Res.ret 0 (w.enter (Call.exit args))

/-- The table `builtin_func`. -/
def builtin_func : List (Env → List (List Char) → World → Res Int) :=
  [lsh_cd, lsh_help, lsh_exit]

/-- The `for` loop of `lsh_execute` over the rows `i` of the two tables,
followed by the call of `lsh_launch` when no row matches. -/
def dispatch (env : Env) (args : List (List Char)) (arg0 : List Char) (w : World) :
    List (List Char × (Env → List (List Char) → World → Res Int)) → Res Int
  | [] => lsh_launch env args w
  | (name, func) :: rest =>
    if strcmp arg0 name = 0 then func env args w else dispatch env args arg0 w rest

/-- The function `lsh_execute`. -/
def lsh_execute (env : Env) (args : List (List Char)) (w : World) : Res Int :=
  match args with
  | [] => Res.ret 1 w
  | arg0 :: _ => dispatch env args arg0 w (builtin_str.zip builtin_func)

/-- The loop `while (status) { ... }` of `lsh_loop`, over the results of the
successive `getline` calls; with none left the process stays blocked reading. -/
def loop_while (env : Env) : Int → List ReadResult → World → Res Unit
  | status, input, w =>
    if status = 0 then Res.ret () w
    else
      match input with
      | [] => Res.blocked (w.printf "> ".toList)
      | r :: rest =>
        match lsh_read_line r (w.printf "> ".toList) with
        | Res.ret line w1 =>
          match lsh_split_line env.alloc line with
          | some (SplitResult.returned tokens _ mem) =>
            match read_argv mem tokens with
            | some args =>
              match lsh_execute env args w1 with
              | Res.ret status1 w2 => loop_while env status1 rest w2
              | Res.exit code w2 => Res.exit code w2
              | Res.exec a w2 => Res.exec a w2
              | Res.blocked w2 => Res.blocked w2
              | Res.undefined w2 => Res.undefined w2
            | none => Res.undefined w1
          | some SplitResult.alloc_error =>
            Res.exit EXIT_FAILURE (w1.eprintf "lsh: allocation error\n".toList)
          | _ => Res.undefined w1
        | Res.exit code w1 => Res.exit code w1
        | Res.exec a w1 => Res.exec a w1
        | Res.blocked w1 => Res.blocked w1
        | Res.undefined w1 => Res.undefined w1

/-- The function `lsh_loop`. -/
def lsh_loop (env : Env) (input : List ReadResult) (w : World) : Res Unit :=
  loop_while env 1 input w

/-- The function `main`: the exit status of the process and its final state. -/
def main (env : Env) (input : List ReadResult) (w : World) : Res Unit :=
  match lsh_loop env input w with
  | Res.ret _ w1 => Res.exit EXIT_SUCCESS w1
  | r => r

/-- The start addresses of the occurrences of `pat` in `text`. -/
def occurrences (pat text : List Char) : List Nat :=
  (List.range (text.length + 1)).filter (fun i => pat.isPrefixOf (text.drop i))

/-- The text `lsh_help` writes to standard output. -/
def help_text : List Char :=
  ("Simple Shell (lsh)\n" ++ "Type program names and arguments, then hit enter.\n" ++
   "Built-in commands:\n" ++ "  cd\n" ++ "  help\n" ++ "  exit\n" ++
   "Use the man command for information on other programs.\n").toList

/-- A world in which nothing has happened yet. -/
def World.init (cwd : List Char) : World :=
  { cwd := cwd, out := [], err := [], calls := [], sys := [], forks := 0 }

/-! ## Definitions used in the statements and proofs -/

/-- The saved pointer has not passed the terminator at `L`, and the buffer
still agrees with the original line from the saved pointer on. -/
def Inv (line : List Char) (L : Nat) (st : StrtokState) : Prop :=
  st.olds ≤ L ∧ st.mem.length = line.length ∧ ∀ k, st.olds ≤ k → peek st.mem k = peek line k

/-- The text of `line` ends at `L`: the first `NUL` is at address `L`. -/
def TextEnd (line : List Char) (L : Nat) : Prop :=
  (∀ k, k < L → peek line k ≠ NUL) ∧ peek line L = NUL

/-- The successive results of `strtok` seen by the loop of `lsh_split_line`:
from state `st` with current result `token`, the loop sees the pointers
`ptrs` and leaves the buffer `memf`. -/
inductive Run : StrtokState → Option Nat → List Nat → List Char → Prop
  | done (st : StrtokState) : Run st none [] st.mem
  | step (st : StrtokState) (s : Nat) (ptrs : List Nat) (memf : List Char) :
      Run (strtok st none).2 (strtok st none).1 ptrs memf → Run st (some s) (s :: ptrs) memf

/-- A left-to-right scan of the text `mem[0..L)` from address `p`: the ranges
found are separated by delimiters, free of delimiters, and end at a delimiter
or at `L`. -/
inductive Scan (mem : List Char) (L : Nat) : Nat → List (Nat × Nat) → Prop
  | nil (p : Nat) : (∀ k, p ≤ k → k < L → peek mem k ∈ LSH_TOK_DELIM) → Scan mem L p []
  | cons (p s e : Nat) (ivs : List (Nat × Nat)) :
      p ≤ s → (∀ k, p ≤ k → k < s → peek mem k ∈ LSH_TOK_DELIM) →
      s < e → e ≤ L → (∀ k, s ≤ k → k < e → peek mem k ∉ LSH_TOK_DELIM) →
      (e = L ∨ peek mem e ∈ LSH_TOK_DELIM) →
      Scan mem L (e + 1) ivs → Scan mem L p ((s, e) :: ivs)

/-- The effect of the whole sequence of `strtok` calls that follows state `st`. -/
def RunSpec (line : List Char) (L : Nat) (st : StrtokState) : Prop :=
  ∃ ivs memf, Run (strtok st none).2 (strtok st none).1 (ivs.map Prod.fst) memf ∧
    Scan line L st.olds ivs ∧ memf.length = line.length ∧
    (∀ k, k < st.olds → peek memf k = peek st.mem k) ∧
    (∀ iv ∈ ivs, (∀ k, iv.1 ≤ k → k < iv.2 → peek memf k = peek line k) ∧
      peek memf iv.2 = NUL)

/-- The array side of the loop of `lsh_split_line`, for a known sequence of
`strtok` results `ptrs` and final buffer `memf`. -/
def push_loop (alloc : Nat → Bool) : List Nat → List Slot → Nat → Nat → List Char → SplitResult
  | [], tokens, bufsize, position, memf =>
    match store tokens position Slot.null with
    | none => SplitResult.bad_store
    | some tokens1 => SplitResult.returned tokens1 bufsize memf
  | tok :: ptrs, tokens, bufsize, position, memf =>
    match store tokens position (Slot.ptr tok) with
    | none => SplitResult.bad_store
    | some tokens1 =>
      if INT_MAX < position + 1 then SplitResult.int_overflow
      else if bufsize ≤ position + 1 then
        if INT_MAX < bufsize + LSH_TOK_BUFSIZE then SplitResult.int_overflow
        else
          match realloc alloc tokens1 ((bufsize + LSH_TOK_BUFSIZE) * SIZEOF_PTR % SIZE_MOD) with
          | none => SplitResult.alloc_error
          | some tokens2 => push_loop alloc ptrs tokens2 (bufsize + LSH_TOK_BUFSIZE) (position + 1) memf
      else push_loop alloc ptrs tokens1 bufsize (position + 1) memf

/-- The order of ranges from left to right: by start, then by end. -/
def RangeLt (a b : Nat × Nat) : Prop := a.1 < b.1 ∨ (a.1 = b.1 ∧ a.2 < b.2)

/-- The line `"a a a ... a "` of `n` one-letter words, each followed by a space. -/
def repeat_word : Nat → List Char
  | 0 => []
  | n + 1 => 'a' :: ' ' :: repeat_word n

/-- A line of `INT_MAX - 63` words (4 GiB of text). -/
def overflow_line : List Char := repeat_word 2147483584

/-- The state of the process when a function ends. -/
def Res.world {α : Type} : Res α → World
  | Res.ret _ w => w
  | Res.exit _ w => w
  | Res.exec _ w => w
  | Res.blocked w => w
  | Res.undefined w => w

/-- An environment in which every allocation succeeds, `chdir` fails, `fork`
returns pid 7 in the parent, and the child is first stopped, then exits. -/
def demo_env : Env :=
  { alloc := fun _ => true
    chdir := fun _ _ => none
    fork := fun _ => ForkResult.parent 7
    waits := fun _ => [WaitResult.stopped 19, WaitResult.exited 0]
    execvp := fun _ => false }

/-! ## Theorems -/

/-! ## Reading and writing the line buffer -/

theorem nul_not_delim : NUL ∉ LSH_TOK_DELIM := by decide

theorem peek_eq_getElem (mem : List Char) (p : Nat) (h : p < mem.length) :
    peek mem p = mem[p] := by
  simp [peek, List.getD, List.getElem?_eq_getElem h]

theorem peek_of_le (mem : List Char) (p : Nat) (h : mem.length ≤ p) : peek mem p = NUL := by
  simp [peek, List.getD, List.getElem?_eq_none h]

theorem lt_of_peek_ne (mem : List Char) (p : Nat) (h : peek mem p ≠ NUL) : p < mem.length := by
  by_contra hc
  exact h (peek_of_le mem p (Nat.le_of_not_lt hc))

theorem peek_drop (mem : List Char) (s k : Nat) : peek (mem.drop s) k = peek mem (s + k) := by
  simp [peek, List.getD, List.getElem?_drop]

theorem peek_set_ne (mem : List Char) (e k : Nat) (v : Char) (h : k ≠ e) :
    peek (mem.set e v) k = peek mem k := by
  simp [peek, List.getD, List.getElem?_set_ne (Ne.symm h)]

theorem peek_set_eq (mem : List Char) (e : Nat) (v : Char) (h : e < mem.length) :
    peek (mem.set e v) e = v := by
  simp [peek, List.getD, List.getElem?_set_self, h]

/-- The run that `takeWhile p` keeps: every byte in it satisfies `p`, the byte
after it does not. -/
theorem takeWhile_run (p : Char → Bool) (hp : p NUL = false) (l : List Char) :
    (∀ k, k < (l.takeWhile p).length → p (peek l k) = true) ∧
    p (peek l (l.takeWhile p).length) = false := by
  induction l with
  | nil => simp [peek, hp]
  | cons c cs ih =>
    by_cases hc : p c = true
    · rw [List.takeWhile_cons_of_pos hc]
      refine ⟨?_, ?_⟩
      · intro k hk
        cases k with
        | zero => simpa [peek] using hc
        | succ k =>
          have := ih.1 k (by simpa using hk)
          simpa [peek] using this
      · simpa [peek] using ih.2
    · rw [List.takeWhile_cons_of_neg hc]
      refine ⟨by simp, ?_⟩
      simpa [peek] using hc

theorem strspn_spec (mem : List Char) (s : Nat) :
    (∀ k, s ≤ k → k < s + strspn mem s → peek mem k ∈ LSH_TOK_DELIM) ∧
    peek mem (s + strspn mem s) ∉ LSH_TOK_DELIM := by
  have h := takeWhile_run (fun c => decide (c ∈ LSH_TOK_DELIM)) (by decide) (mem.drop s)
  refine ⟨?_, ?_⟩
  · intro k h1 h2
    have := h.1 (k - s) (by unfold strspn at h2; omega)
    rw [peek_drop] at this
    have e : s + (k - s) = k := by omega
    rw [e] at this
    simpa using this
  · have := h.2
    rw [peek_drop] at this
    simpa [strspn] using this

theorem strcspn_spec (mem : List Char) (s : Nat) :
    (∀ k, s ≤ k → k < s + strcspn mem s → peek mem k ≠ NUL ∧ peek mem k ∉ LSH_TOK_DELIM) ∧
    (peek mem (s + strcspn mem s) = NUL ∨ peek mem (s + strcspn mem s) ∈ LSH_TOK_DELIM) := by
  have h := takeWhile_run (fun c => decide (c ≠ NUL ∧ c ∉ LSH_TOK_DELIM)) (by decide)
    (mem.drop s)
  refine ⟨?_, ?_⟩
  · intro k h1 h2
    have := h.1 (k - s) (by unfold strcspn at h2; omega)
    rw [peek_drop] at this
    have e : s + (k - s) = k := by omega
    rw [e] at this
    simpa using this
  · have := h.2
    rw [peek_drop] at this
    have h3 : ¬ (peek mem (s + strcspn mem s) ≠ NUL ∧ peek mem (s + strcspn mem s) ∉ LSH_TOK_DELIM) := by
      simpa [strcspn] using this
    by_cases h4 : peek mem (s + strcspn mem s) = NUL
    · exact Or.inl h4
    · right
      by_contra h5
      exact h3 ⟨h4, h5⟩

theorem strcspn_pos (mem : List Char) (s : Nat) (h1 : peek mem s ≠ NUL)
    (h2 : peek mem s ∉ LSH_TOK_DELIM) : 0 < strcspn mem s := by
  by_contra hc
  have h0 : strcspn mem s = 0 := by omega
  have := (strcspn_spec mem s).2
  rw [h0] at this
  rcases this with h | h
  · exact h1 h
  · exact h2 h

theorem textEnd_cstr (line : List Char) : TextEnd line (cstr line).length := by
  have h := takeWhile_run (fun c => decide (c ≠ NUL)) (by decide) line
  refine ⟨?_, ?_⟩
  · intro k hk
    have := h.1 k (by simpa [cstr, cstr_at] using hk)
    simpa using this
  · have := h.2
    simpa [cstr, cstr_at] using this

theorem textEnd_le (line : List Char) (L : Nat) (h : TextEnd line L) : L ≤ line.length := by
  by_contra hc
  have : line.length < L := by omega
  exact h.1 _ this (peek_of_le line _ (le_refl _))

/-- What one call `strtok(NULL, LSH_TOK_DELIM)` does, in terms of the
original line. -/
theorem strtok_cases (line : List Char) (L : Nat) (hL : TextEnd line L) (st : StrtokState)
    (hinv : Inv line L st) :
    ((strtok st none).1 = none ∧ (strtok st none).2.mem = st.mem ∧
      (∀ k, st.olds ≤ k → k < L → peek line k ∈ LSH_TOK_DELIM)) ∨
    (∃ s e, (strtok st none).1 = some s ∧ st.olds ≤ s ∧ s < e ∧ e ≤ L ∧
      (∀ k, st.olds ≤ k → k < s → peek line k ∈ LSH_TOK_DELIM) ∧
      (∀ k, s ≤ k → k < e → peek line k ∉ LSH_TOK_DELIM) ∧
      ((e = L ∧ (strtok st none).2 = { mem := st.mem, olds := L }) ∨
       (e < L ∧ peek line e ∈ LSH_TOK_DELIM ∧
        (strtok st none).2 = { mem := st.mem.set e NUL, olds := e + 1 }))) := by
  obtain ⟨ho, _, hag⟩ := hinv
  obtain ⟨hL1, hL2⟩ := hL
  have hsp := strspn_spec st.mem st.olds
  have hs1L : st.olds + strspn st.mem st.olds ≤ L := by
    by_contra hc
    have h1 := hsp.1 L ho (by omega)
    rw [hag L ho, hL2] at h1
    exact nul_not_delim h1
  have hd : ∀ k, st.olds ≤ k → k < st.olds + strspn st.mem st.olds →
      peek line k ∈ LSH_TOK_DELIM := by
    intro k h1 h2
    rw [← hag k h1]; exact hsp.1 k h1 h2
  by_cases h0 : peek st.mem (st.olds + strspn st.mem st.olds) = NUL
  · left
    have hs1 : st.olds + strspn st.mem st.olds = L := by
      by_contra hc
      have hlt : st.olds + strspn st.mem st.olds < L := by omega
      apply hL1 _ hlt
      rw [← hag _ (by omega)]; exact h0
    simp only [strtok, h0, if_true]
    refine ⟨trivial, trivial, ?_⟩
    intro k h1 h2
    exact hd k h1 (by omega)
  · right
    have hs1 : st.olds + strspn st.mem st.olds < L := by
      rcases Nat.lt_or_eq_of_le hs1L with h | h
      · exact h
      · exfalso; apply h0; rw [h, hag L ho]; exact hL2
    have hcs := strcspn_spec st.mem (st.olds + strspn st.mem st.olds)
    have hpos := strcspn_pos st.mem _ h0 hsp.2
    have heL : st.olds + strspn st.mem st.olds +
        strcspn st.mem (st.olds + strspn st.mem st.olds) ≤ L := by
      by_contra hc
      have h1 := (hcs.1 L (by omega) (by omega)).1
      rw [hag L ho] at h1
      exact h1 hL2
    refine ⟨st.olds + strspn st.mem st.olds, st.olds + strspn st.mem st.olds +
        strcspn st.mem (st.olds + strspn st.mem st.olds), ?_, by omega, by omega, heL, hd, ?_, ?_⟩
    · simp only [strtok, h0, if_false]
      split <;> rfl
    · intro k h1 h2
      rw [← hag k (by omega)]
      exact (hcs.1 k h1 h2).2
    · by_cases h3 : peek st.mem (st.olds + strspn st.mem st.olds +
          strcspn st.mem (st.olds + strspn st.mem st.olds)) = NUL
      · left
        have heq : st.olds + strspn st.mem st.olds +
            strcspn st.mem (st.olds + strspn st.mem st.olds) = L := by
          by_contra hc
          have hlt : st.olds + strspn st.mem st.olds +
            strcspn st.mem (st.olds + strspn st.mem st.olds) < L := by omega
          apply hL1 _ hlt
          rw [← hag _ (by omega)]; exact h3
        refine ⟨heq, ?_⟩
        simp only [strtok, h0, if_false, h3, if_true]
        rw [heq]
      · right
        have hlt : st.olds + strspn st.mem st.olds +
            strcspn st.mem (st.olds + strspn st.mem st.olds) < L := by
          rcases Nat.lt_or_eq_of_le heL with h | h
          · exact h
          · exfalso; apply h3; rw [h, hag L ho]; exact hL2
        refine ⟨hlt, ?_, ?_⟩
        · rw [← hag _ (by omega)]
          rcases hcs.2 with h | h
          · exact absurd h h3
          · exact h
        · simp only [strtok, h0, if_false, h3]

theorem scan_length (mem : List Char) (L : Nat) (p : Nat) (ivs : List (Nat × Nat))
    (h : Scan mem L p ivs) : ivs.length ≤ L - p := by
  induction h with
  | nil p _ => simp
  | cons p s e ivs h1 _ h3 h4 _ _ _ ih =>
    simp only [List.length_cons]
    omega

theorem run_spec_aux (line : List Char) (L : Nat) (hL : TextEnd line L) :
    ∀ n (st : StrtokState), Inv line L st → L - st.olds ≤ n → RunSpec line L st := by
  intro n
  induction n with
  | zero =>
    intro st hinv hn
    have holds : st.olds = L := by have := hinv.1; omega
    rcases strtok_cases line L hL st hinv with ⟨h1, h2, h3⟩ | ⟨s, e, _, h2, h3, h4, _⟩
    · refine ⟨[], st.mem, ?_, Scan.nil _ h3, hinv.2.1, fun _ _ => rfl, by simp⟩
      rw [h1, ← h2]; exact Run.done _
    · omega
  | succ n ih =>
    intro st hinv hn
    rcases strtok_cases line L hL st hinv with ⟨h1, h2, h3⟩ |
      ⟨s, e, h1, h2, h3, h4, h5, h6, h7⟩
    · refine ⟨[], st.mem, ?_, Scan.nil _ h3, hinv.2.1, fun _ _ => rfl, by simp⟩
      rw [h1, ← h2]; exact Run.done _
    · rcases h7 with ⟨he, hst⟩ | ⟨he, hde, hst⟩
      · -- the token ends at the terminator: the next call returns NULL
        have hinv2 : Inv line L { mem := st.mem, olds := L } :=
          ⟨le_refl _, hinv.2.1, fun k hk => hinv.2.2 k (by simp at hk; omega)⟩
        rcases strtok_cases line L hL _ hinv2 with ⟨g1, g2, _⟩ | ⟨s2, e2, _, g2, g3, g4, _⟩
        · refine ⟨[(s, e)], st.mem, ?_, ?_, hinv.2.1, fun _ _ => rfl, ?_⟩
          · rw [h1, hst]
            simp only [List.map_cons, List.map_nil]
            apply Run.step
            rw [g1]
            have := Run.done (strtok { mem := st.mem, olds := L } none).2
            rw [g2] at this
            exact this
          · exact Scan.cons _ s e [] h2 h5 h3 h4 h6 (Or.inl he)
              (Scan.nil _ (fun k hk1 hk2 => by omega))
          · intro iv hiv
            simp only [List.mem_singleton] at hiv
            subst hiv
            refine ⟨fun k hk1 hk2 => hinv.2.2 k (by omega), ?_⟩
            show peek st.mem e = NUL
            rw [hinv.2.2 e (by omega), he]; exact hL.2
        · simp at g2; omega
      · -- the token ends at a delimiter, which is overwritten
        have helt : e < st.mem.length := by
          have := textEnd_le line L hL
          rw [hinv.2.1]; omega
        have hinv2 : Inv line L { mem := st.mem.set e NUL, olds := e + 1 } := by
          refine ⟨by simp; omega, by simp [hinv.2.1], ?_⟩
          intro k hk
          simp only at hk
          show peek (st.mem.set e NUL) k = peek line k
          rw [peek_set_ne _ _ _ _ (by omega)]
          exact hinv.2.2 k (by omega)
        obtain ⟨ivs, memf, r1, r2, r3, r4, r5⟩ := ih _ hinv2 (by simp; omega)
        refine ⟨(s, e) :: ivs, memf, ?_, ?_, r3, ?_, ?_⟩
        · rw [h1, hst]
          simp only [List.map_cons]
          exact Run.step _ _ _ _ r1
        · exact Scan.cons _ s e ivs h2 h5 h3 (by omega) h6 (Or.inr hde) r2
        · intro k hk
          rw [r4 k (by simp; omega)]
          exact peek_set_ne _ _ _ _ (by omega)
        · intro iv hiv
          rcases List.mem_cons.1 hiv with h | h
          · subst h
            refine ⟨fun k hk1 hk2 => ?_, ?_⟩
            · rw [r4 k (by simp; omega)]
              show peek (st.mem.set e NUL) k = peek line k
              rw [peek_set_ne _ _ _ _ (by omega)]
              exact hinv.2.2 k (by omega)
            · rw [r4 e (by simp)]
              exact peek_set_eq _ _ _ helt
          · exact r5 iv h

theorem run_spec (line : List Char) (L : Nat) (hL : TextEnd line L) :
    RunSpec line L { mem := line, olds := 0 } :=
  run_spec_aux line L hL L _ ⟨Nat.zero_le _, rfl, fun _ _ => rfl⟩ (by simp)

theorem split_loop_eq_push (alloc : Nat → Bool) (st : StrtokState) (token : Option Nat)
    (ptrs : List Nat) (memf : List Char) (h : Run st token ptrs memf) :
    ∀ fuel tokens bufsize position, ptrs.length < fuel →
      split_loop alloc fuel st token tokens bufsize position
        = some (push_loop alloc ptrs tokens bufsize position memf) := by
  induction h with
  | done st =>
    intro fuel tokens bufsize position hf
    cases fuel with
    | zero => simp at hf
    | succ fuel =>
      simp only [split_loop, push_loop]
      cases store tokens position Slot.null <;> rfl
  | step st s ptrs memf _ ih =>
    intro fuel tokens bufsize position hf
    cases fuel with
    | zero => simp at hf
    | succ fuel =>
      have hf2 : ptrs.length < fuel := by simpa using hf
      simp only [split_loop, push_loop]
      cases store tokens position (Slot.ptr s) with
      | none => rfl
      | some tokens1 =>
        simp only []
        split
        · rfl
        · split
          · split
            · rfl
            · cases realloc alloc tokens1 ((bufsize + LSH_TOK_BUFSIZE) * SIZEOF_PTR % SIZE_MOD) with
              | none => rfl
              | some tokens2 => exact ih fuel _ _ _ hf2
          · exact ih fuel _ _ _ hf2

theorem store_some (arr : List Slot) (i : Nat) (v : Slot) (h : i < arr.length) :
    store arr i v = some (arr.set i v) := by
  simp [store, h]

theorem take_set_succ (arr : List Slot) (i : Nat) (v : Slot) (h : i < arr.length) :
    (arr.set i v).take (i + 1) = arr.take i ++ [v] := by
  induction arr generalizing i with
  | nil => simp at h
  | cons a as ih =>
    cases i with
    | zero => simp
    | succ i =>
      have := ih i (by simpa using h)
      simp [List.set, List.take, this]

theorem realloc_grow (alloc : Nat → Bool) (arr : List Slot) (b : Nat)
    (hlen : arr.length = b) (hb : b + LSH_TOK_BUFSIZE ≤ INT_MAX)
    (ha : alloc ((b + LSH_TOK_BUFSIZE) * SIZEOF_PTR % SIZE_MOD) = true) :
    realloc alloc arr ((b + LSH_TOK_BUFSIZE) * SIZEOF_PTR % SIZE_MOD)
      = some (arr ++ List.replicate LSH_TOK_BUFSIZE Slot.junk) := by
  have h1 : (b + LSH_TOK_BUFSIZE) * SIZEOF_PTR % SIZE_MOD / SIZEOF_PTR = b + LSH_TOK_BUFSIZE := by
    simp only [LSH_TOK_BUFSIZE, SIZEOF_PTR, SIZE_MOD, INT_MAX] at *
    omega
  simp only [realloc, ha, if_true, h1]
  rw [List.take_of_length_le (by omega)]
  have h2 : b + LSH_TOK_BUFSIZE - arr.length = LSH_TOK_BUFSIZE := by omega
  rw [h2]

/-- The outcome of the array side of the loop, from a state in which the
capacity is the multiple of 64 just above `position`. -/
theorem push_loop_spec (alloc : Nat → Bool) (memf : List Char) :
    ∀ (ptrs : List Nat) (arr : List Slot) (b p : Nat),
      arr.length = b → p < b → b = 64 * (p / 64 + 1) → b ≤ INT_MAX →
      (push_loop alloc ptrs arr b p memf = SplitResult.alloc_error ∧ ∃ n, alloc n = false) ∨
      (push_loop alloc ptrs arr b p memf = SplitResult.int_overflow ∧
        INT_MAX - 63 ≤ p + ptrs.length) ∨
      (∃ arr2, push_loop alloc ptrs arr b p memf
          = SplitResult.returned arr2 (64 * ((p + ptrs.length) / 64 + 1)) memf ∧
        p + ptrs.length < INT_MAX - 63 ∧
        arr2.length = 64 * ((p + ptrs.length) / 64 + 1) ∧
        arr2.take (p + ptrs.length + 1) = arr.take p ++ ptrs.map Slot.ptr ++ [Slot.null]) := by
  intro ptrs
  induction ptrs with
  | nil =>
    intro arr b p hlen hp hb hmax
    right; right
    refine ⟨arr.set p Slot.null, ?_, ?_, ?_, ?_⟩
    · simp only [push_loop, store_some arr p _ (by omega), List.length_nil, Nat.add_zero]
      rw [← hb]
    · simp only [INT_MAX] at *; simp only [List.length_nil]; omega
    · simp only [List.length_set, List.length_nil, Nat.add_zero]; omega
    · simp only [List.length_nil, Nat.add_zero, List.map_nil, List.append_nil]
      exact take_set_succ arr p _ (by omega)
  | cons s ptrs ih =>
    intro arr b p hlen hp hb hmax
    have hst := store_some arr p (Slot.ptr s) (by omega)
    have h1 : ¬ (INT_MAX < p + 1) := by omega
    simp only [push_loop, hst, h1, if_false]
    by_cases hgrow : b ≤ p + 1
    · simp only [hgrow, if_true]
      by_cases hov : INT_MAX < b + LSH_TOK_BUFSIZE
      · right; left
        simp only [hov, if_true, true_and]
        simp only [INT_MAX, LSH_TOK_BUFSIZE, List.length_cons] at *
        omega
      · simp only [hov, if_false]
        by_cases ha : alloc ((b + LSH_TOK_BUFSIZE) * SIZEOF_PTR % SIZE_MOD) = true
        · rw [realloc_grow alloc (arr.set p (Slot.ptr s)) b (by simp [hlen]) (by omega) ha]
          simp only []
          have hlen2 : (arr.set p (Slot.ptr s) ++ List.replicate LSH_TOK_BUFSIZE Slot.junk).length
              = b + LSH_TOK_BUFSIZE := by simp [hlen]
          have e1 : p + 1 + ptrs.length = p + (s :: ptrs).length := by
            simp only [List.length_cons]; omega
          have htk : (arr.set p (Slot.ptr s) ++ List.replicate LSH_TOK_BUFSIZE Slot.junk).take (p + 1)
              = arr.take p ++ [Slot.ptr s] := by
            rw [List.take_append_of_le_length (by simp; omega)]
            exact take_set_succ arr p _ (by omega)
          rcases ih _ (b + LSH_TOK_BUFSIZE) (p + 1) hlen2
              (by simp only [LSH_TOK_BUFSIZE]; omega)
              (by simp only [LSH_TOK_BUFSIZE]; omega) (by omega) with h | h | ⟨arr2, h, g1, g2, g3⟩
          · exact Or.inl h
          · right; left
            rw [← e1]; exact h
          · right; right
            refine ⟨arr2, ?_, ?_, ?_, ?_⟩
            · rw [← e1]; exact h
            · rw [← e1]; exact g1
            · rw [← e1]; exact g2
            · rw [← e1, g3, htk]; simp
        · left
          have ha2 : alloc ((b + LSH_TOK_BUFSIZE) * SIZEOF_PTR % SIZE_MOD) = false := by
            simpa using ha
          simp only [realloc, ha2]
          exact ⟨by simp, _, ha2⟩
    · simp only [hgrow, if_false]
      have e1 : p + 1 + ptrs.length = p + (s :: ptrs).length := by
        simp only [List.length_cons]; omega
      rcases ih (arr.set p (Slot.ptr s)) b (p + 1) (by simp [hlen]) (by omega) (by omega) hmax
        with h | h | ⟨arr2, h, g1, g2, g3⟩
      · exact Or.inl h
      · right; left
        rw [← e1]; exact h
      · right; right
        refine ⟨arr2, ?_, ?_, ?_, ?_⟩
        · rw [← e1]; exact h
        · rw [← e1]; exact g1
        · rw [← e1]; exact g2
        · rw [← e1, g3, take_set_succ arr p _ (by omega)]; simp

theorem scan_congr (mem mem2 : List Char) (L p : Nat) (ivs : List (Nat × Nat))
    (h : Scan mem L p ivs) (hag : ∀ k, k < L → peek mem k = peek mem2 k) :
    Scan mem2 L p ivs := by
  induction h with
  | nil p h1 => exact Scan.nil p (fun k a b => by rw [← hag k b]; exact h1 k a b)
  | cons p s e ivs h1 h2 h3 h4 h5 h6 _ ih =>
    refine Scan.cons p s e ivs h1 (fun k a b => ?_) h3 h4 (fun k a b => ?_) ?_ ih
    · rw [← hag k (by omega)]; exact h2 k a b
    · rw [← hag k (by omega)]; exact h5 k a b
    · rcases Nat.lt_or_eq_of_le h4 with h | h
      · right
        rcases h6 with g | g
        · omega
        · rw [← hag e h]; exact g
      · exact Or.inl h

theorem scan_ge (mem : List Char) (L p : Nat) (ivs : List (Nat × Nat))
    (h : Scan mem L p ivs) : ∀ iv ∈ ivs, p ≤ iv.1 := by
  induction h with
  | nil p _ => simp
  | cons p s e ivs h1 _ h3 _ _ _ _ ih =>
    intro iv hiv
    rcases List.mem_cons.1 hiv with h | h
    · subst h; exact h1
    · have := ih iv h
      omega

theorem scan_sorted (mem : List Char) (L p : Nat) (ivs : List (Nat × Nat))
    (h : Scan mem L p ivs) : ivs.Pairwise RangeLt := by
  induction h with
  | nil p _ => exact List.Pairwise.nil
  | cons p s e ivs _ _ h3 _ _ _ hs ih =>
    refine List.Pairwise.cons ?_ ih
    intro iv hiv
    have := scan_ge mem L _ ivs hs iv hiv
    left
    show s < iv.1
    omega

theorem scan_sound (txt : List Char) (p : Nat) (ivs : List (Nat × Nat))
    (h : Scan txt txt.length p ivs) :
    (p = 0 ∨ txt.length < p ∨ peek txt (p - 1) ∈ LSH_TOK_DELIM) →
    ∀ iv ∈ ivs, IsMaximalToken txt iv.1 iv.2 := by
  induction h with
  | nil p _ => simp
  | cons p s e ivs h1 h2 h3 h4 h5 h6 _ ih =>
    intro hb iv hiv
    rcases List.mem_cons.1 hiv with h | h
    · subst h
      refine ⟨h3, h4, fun k a b => h5 k b a, ?_, h6⟩
      rcases Nat.lt_or_eq_of_le h1 with g | g
      · right; exact h2 (s - 1) (by omega) (by omega)
      · subst g
        rcases hb with hb | hb | hb
        · exact Or.inl hb
        · omega
        · exact Or.inr hb
    · apply ih _ iv h
      rcases h6 with g | g
      · right; left; omega
      · right; right; simpa using g

theorem scan_complete (txt : List Char) (p : Nat) (ivs : List (Nat × Nat))
    (h : Scan txt txt.length p ivs) :
    ∀ i j, IsMaximalToken txt i j → p ≤ i → (i, j) ∈ ivs := by
  induction h with
  | nil p h1 =>
    intro i j ⟨a, b, c, _, _⟩ hp
    exact absurd (h1 i hp (by omega)) (c i a (le_refl _))
  | cons p s e ivs h1 h2 h3 h4 h5 h6 _ ih =>
    intro i j ht hp
    obtain ⟨a, b, c, d, f⟩ := ht
    by_cases c1 : i < s
    · exact absurd (h2 i hp c1) (c i a (le_refl _))
    by_cases c2 : i = s
    · subst c2
      have hj : j = e := by
        by_contra hne
        rcases Nat.lt_or_gt_of_ne hne with g | g
        · rcases f with f | f
          · omega
          · exact h5 j (by omega) g f
        · rcases h6 with h6 | h6
          · omega
          · exact c e g (by omega) h6
      subst hj
      exact List.mem_cons_self _ _
    by_cases c3 : i ≤ e
    · rcases d with d | d
      · omega
      · exact absurd d (h5 (i - 1) (by omega) (by omega))
    · exact List.mem_cons_of_mem _ (ih i j ⟨a, b, c, d, f⟩ (by omega))

theorem mem_all_ranges (n i j : Nat) : (i, j) ∈ all_ranges n ↔ i ≤ n ∧ j ≤ n := by
  simp [all_ranges, Nat.lt_succ_iff]

theorem all_ranges_sorted (n : Nat) : (all_ranges n).Pairwise RangeLt := by
  unfold all_ranges
  rw [List.pairwise_flatMap]
  refine ⟨?_, ?_⟩
  · intro a _
    rw [List.pairwise_map]
    exact (List.pairwise_lt_range (n + 1)).imp (fun h => Or.inr ⟨rfl, h⟩)
  · refine (List.pairwise_lt_range (n + 1)).imp ?_
    intro a b hab x hx y hy
    simp only [List.mem_map] at hx hy
    obtain ⟨_, _, rfl⟩ := hx
    obtain ⟨_, _, rfl⟩ := hy
    exact Or.inl hab

theorem mem_spec_ranges (txt : List Char) (iv : Nat × Nat) :
    iv ∈ spec_ranges txt ↔ IsMaximalToken txt iv.1 iv.2 := by
  obtain ⟨i, j⟩ := iv
  simp only [spec_ranges, List.mem_filter, mem_all_ranges, decide_eq_true_eq]
  constructor
  · exact fun h => h.2
  · intro h
    exact ⟨⟨by have := h.1; have := h.2.1; omega, h.2.1⟩, h⟩

theorem spec_ranges_sorted (txt : List Char) : (spec_ranges txt).Pairwise RangeLt :=
  (all_ranges_sorted _).filter _

theorem rangeLt_nodup (l : List (Nat × Nat)) (h : l.Pairwise RangeLt) : l.Nodup := by
  refine h.imp ?_
  intro a b hab heq
  subst heq
  rcases hab with g | g
  · omega
  · omega

/-- A scan of a text from its start finds exactly the ranges of the spec. -/
theorem scan_eq_spec (txt : List Char) (ivs : List (Nat × Nat))
    (h : Scan txt txt.length 0 ivs) : ivs = spec_ranges txt := by
  haveI : IsAntisymm (Nat × Nat) RangeLt :=
    ⟨fun a b h1 h2 => by unfold RangeLt at h1 h2; exfalso; omega⟩
  have hs1 := scan_sorted _ _ _ _ h
  have hs2 := spec_ranges_sorted txt
  refine List.eq_of_perm_of_sorted ?_ hs1 hs2
  rw [List.perm_ext_iff_of_nodup (rangeLt_nodup _ hs1) (rangeLt_nodup _ hs2)]
  intro iv
  rw [mem_spec_ranges]
  constructor
  · exact scan_sound txt 0 ivs h (Or.inl rfl) iv
  · intro ht
    exact scan_complete txt 0 ivs h iv.1 iv.2 ht (Nat.zero_le _)

theorem ext_peek (l1 l2 : List Char) (hl : l1.length = l2.length)
    (h : ∀ k, k < l1.length → peek l1 k = peek l2 k) : l1 = l2 := by
  apply List.ext_getElem hl
  intro k h1 h2
  have := h k h1
  rwa [peek_eq_getElem _ _ h1, peek_eq_getElem _ _ h2] at this

theorem peek_take (l : List Char) (n k : Nat) (h : k < n) : peek (l.take n) k = peek l k := by
  simp [peek, List.getD, List.getElem?_take, h]

theorem takeWhile_eq_take (l : List Char) :
    ∀ n, (∀ k, k < n → peek l k ≠ NUL) → peek l n = NUL →
      l.takeWhile (fun c => decide (c ≠ NUL)) = l.take n := by
  induction l with
  | nil => intro n _ _; simp
  | cons c cs ih =>
    intro n h1 h2
    cases n with
    | zero =>
      have : c = NUL := by simpa [peek] using h2
      simp [this]
    | succ n =>
      have hc : c ≠ NUL := by simpa [peek] using h1 0 (by omega)
      have := ih n (fun k hk => by simpa [peek] using h1 (k + 1) (by omega))
        (by simpa [peek] using h2)
      rw [List.takeWhile_cons_of_pos (by simpa using hc), this, List.take_succ_cons]

theorem peek_cstr (line : List Char) (k : Nat) (h : k < (cstr line).length) :
    peek (cstr line) k = peek line k := by
  have hL := textEnd_cstr line
  have e : cstr line = line.take (cstr line).length := by
    have := takeWhile_eq_take line _ hL.1 hL.2
    simpa [cstr, cstr_at] using this
  have g := peek_take line (cstr line).length k h
  rw [← e] at g
  exact g

/-- The C string read at the start of a token is the substring of the line. -/
theorem cstr_at_eq_slice (memf line : List Char) (s e : Nat) (hse : s ≤ e)
    (he1 : e ≤ memf.length) (he2 : e ≤ line.length)
    (h1 : ∀ k, s ≤ k → k < e → peek memf k = peek line k)
    (h2 : ∀ k, s ≤ k → k < e → peek line k ≠ NUL)
    (h3 : peek memf e = NUL) : cstr_at memf s = slice line (s, e) := by
  have hh : cstr_at memf s = (memf.drop s).take (e - s) := by
    apply takeWhile_eq_take
    · intro k hk
      rw [peek_drop, h1 _ (by omega) (by omega)]
      exact h2 _ (by omega) (by omega)
    · rw [peek_drop]
      have : s + (e - s) = e := by omega
      rw [this]; exact h3
  rw [hh]
  apply ext_peek
  · simp only [slice, List.length_take, List.length_drop]; omega
  · intro k hk
    have hk2 : k < e - s := by
      simp only [List.length_take, List.length_drop] at hk; omega
    simp only [slice]
    rw [peek_take _ _ _ hk2, peek_take _ _ _ hk2, peek_drop, peek_drop]
    exact h1 _ (by omega) (by omega)

theorem slice_cstr (line : List Char) (s e : Nat) (hse : s ≤ e) (he : e ≤ (cstr line).length) :
    slice (cstr line) (s, e) = slice line (s, e) := by
  have hle := textEnd_le line _ (textEnd_cstr line)
  apply ext_peek
  · simp only [slice, List.length_take, List.length_drop]; omega
  · intro k hk
    have hk2 : k < e - s := by
      simp only [slice, List.length_take, List.length_drop] at hk; omega
    simp only [slice]
    rw [peek_take _ _ _ hk2, peek_take _ _ _ hk2, peek_drop, peek_drop]
    exact peek_cstr line _ (by omega)

theorem read_argv_append (mem : List Char) (ptrs : List Nat) (rest : List Slot) :
    read_argv mem (ptrs.map Slot.ptr ++ Slot.null :: rest) = some (ptrs.map (cstr_at mem)) := by
  induction ptrs with
  | nil => simp [read_argv]
  | cons p ps ih => simp [read_argv, ih]

/-- The first `malloc` of `lsh_split_line` either fails or yields 64 slots. -/
theorem malloc_first (alloc : Nat → Bool) :
    malloc alloc (LSH_TOK_BUFSIZE * SIZEOF_PTR % SIZE_MOD)
      = if alloc 512 then some (List.replicate 64 Slot.junk) else none := by
  simp [malloc, LSH_TOK_BUFSIZE, SIZEOF_PTR, SIZE_MOD]

/-- The loop of `lsh_split_line` never runs out of fuel, sees exactly the
starts of the ranges of the spec, and leaves each token readable as a C string. -/
theorem split_loop_result (alloc : Nat → Bool) (line : List Char) :
    ∃ memf, memf.length = line.length ∧
      (∀ iv ∈ spec_ranges (cstr line), cstr_at memf iv.1 = slice (cstr line) iv) ∧
      ∀ tokens bufsize position,
        split_loop alloc (line.length + 1) (strtok { mem := line, olds := 0 } (some 0)).2
            (strtok { mem := line, olds := 0 } (some 0)).1 tokens bufsize position
          = some (push_loop alloc ((spec_ranges (cstr line)).map Prod.fst) tokens bufsize
              position memf) := by
  have hL := textEnd_cstr line
  have hle := textEnd_le line _ hL
  obtain ⟨ivs, memf, r1, r2, r3, _, r5⟩ := run_spec line _ hL
  have hscan : Scan (cstr line) (cstr line).length 0 ivs :=
    scan_congr line (cstr line) _ 0 ivs r2 (fun k hk => (peek_cstr line k hk).symm)
  have heq := scan_eq_spec (cstr line) ivs hscan
  have hlen := scan_length _ _ _ _ r2
  subst heq
  refine ⟨memf, r3, ?_, ?_⟩
  · intro iv hiv
    have ht := (mem_spec_ranges (cstr line) iv).1 hiv
    obtain ⟨a, b, _, _, _⟩ := ht
    have g := r5 iv hiv
    rw [slice_cstr line iv.1 iv.2 (by omega) b]
    exact cstr_at_eq_slice memf line iv.1 iv.2 (by omega) (by omega) (by omega) g.1
      (fun k _ hk2 => hL.1 k (by omega)) g.2
  · intro tokens bufsize position
    have e0 : strtok { mem := line, olds := 0 } (some 0) = strtok { mem := line, olds := 0 } none :=
      rfl
    rw [e0]
    exact split_loop_eq_push alloc _ _ _ memf r1 _ _ _ _ (by simp; omega)

/-- The three ways a call of `lsh_split_line` can end, by the number of
tokens of the line. -/
theorem split_line_cases (alloc : Nat → Bool) (line : List Char) :
    (lsh_split_line alloc line = some SplitResult.alloc_error ∧ ∃ k, alloc k = false) ∨
    (lsh_split_line alloc line = some SplitResult.int_overflow ∧
      INT_MAX - 63 ≤ (spec_tokens (cstr line)).length) ∨
    (∃ arr memf, lsh_split_line alloc line
        = some (SplitResult.returned arr (64 * ((spec_tokens (cstr line)).length / 64 + 1)) memf) ∧
      (spec_tokens (cstr line)).length < INT_MAX - 63 ∧
      arr.length = 64 * ((spec_tokens (cstr line)).length / 64 + 1) ∧
      arr.get? (spec_tokens (cstr line)).length = some Slot.null ∧
      read_argv memf arr = some (spec_tokens (cstr line))) := by
  obtain ⟨memf, _, hstr, hloop⟩ := split_loop_result alloc line
  have hn : (spec_tokens (cstr line)).length = ((spec_ranges (cstr line)).map Prod.fst).length := by
    simp [spec_tokens]
  by_cases ha : alloc 512 = true
  · have hl : lsh_split_line alloc line = some (push_loop alloc
        ((spec_ranges (cstr line)).map Prod.fst) (List.replicate 64 Slot.junk) 64 0 memf) := by
      simp only [lsh_split_line, malloc_first, ha, if_true]
      exact hloop _ _ _
    rcases push_loop_spec alloc memf ((spec_ranges (cstr line)).map Prod.fst)
        (List.replicate 64 Slot.junk) 64 0 (by simp) (by omega) (by omega)
        (by simp [INT_MAX]) with h | h | ⟨arr2, h, g1, g2, g3⟩
    · left; exact ⟨by rw [hl, h.1], h.2⟩
    · right; left
      refine ⟨by rw [hl, h.1], ?_⟩
      rw [hn]; simpa using h.2
    · right; right
      rw [Nat.zero_add] at h g1 g2 g3
      rw [← hn] at h g1 g2 g3
      have harr : arr2 = (spec_ranges (cstr line)).map (fun iv => Slot.ptr iv.1) ++
          Slot.null :: arr2.drop ((spec_tokens (cstr line)).length + 1) := by
        conv_lhs => rw [← List.take_append_drop ((spec_tokens (cstr line)).length + 1) arr2, g3]
        simp
      refine ⟨arr2, memf, by rw [hl, h], g1, g2, ?_, ?_⟩
      · rw [harr, List.get?_eq_getElem?, List.getElem?_append_right (by simp [spec_tokens])]
        simp [spec_tokens]
      · have hmap : (spec_ranges (cstr line)).map (fun iv => Slot.ptr iv.1)
            = ((spec_ranges (cstr line)).map Prod.fst).map Slot.ptr := by simp
        rw [harr, hmap, read_argv_append]
        simp only [spec_tokens, List.map_map]
        congr 1
        apply List.map_congr_left
        intro iv hiv
        exact hstr iv hiv
  · left
    have ha2 : alloc 512 = false := by simpa using ha
    refine ⟨?_, 512, ha2⟩
    simp [lsh_split_line, malloc_first, ha2]

theorem repeat_word_length (n : Nat) : (repeat_word n).length = 2 * n := by
  induction n with
  | zero => rfl
  | succ n ih => simp only [repeat_word, List.length_cons, ih]; omega

theorem repeat_word_peek (n : Nat) :
    ∀ i, i < n → peek (repeat_word n) (2 * i) = 'a' ∧ peek (repeat_word n) (2 * i + 1) = ' ' := by
  induction n with
  | zero => intro i hi; omega
  | succ n ih =>
    intro i hi
    cases i with
    | zero => exact ⟨rfl, rfl⟩
    | succ i =>
      have := ih i (by omega)
      have e1 : 2 * (i + 1) = 2 * i + 1 + 1 := by omega
      have e2 : 2 * (i + 1) + 1 = 2 * i + 1 + 1 + 1 := by omega
      rw [e2, e1]
      simpa [repeat_word, peek] using this

theorem repeat_word_nul (n : Nat) : ∀ c ∈ repeat_word n, c ≠ NUL := by
  induction n with
  | zero => simp [repeat_word]
  | succ n ih =>
    intro c hc
    simp only [repeat_word, List.mem_cons] at hc
    rcases hc with h | h | h
    · subst h; decide
    · subst h; decide
    · exact ih c h

theorem cstr_eq_self (l : List Char) (h : ∀ c ∈ l, c ≠ NUL) : cstr l = l := by
  simp only [cstr, cstr_at, List.drop_zero]
  rw [List.takeWhile_eq_self_iff]
  intro c hc
  simpa using h c hc

theorem repeat_word_scan (n : Nat) :
    ∀ m, m ≤ n → ∃ ivs, ivs.length = m ∧
      Scan (repeat_word n) (repeat_word n).length (2 * (n - m)) ivs := by
  intro m
  induction m with
  | zero =>
    intro _
    refine ⟨[], rfl, Scan.nil _ ?_⟩
    intro k h1 h2
    rw [repeat_word_length] at h2
    omega
  | succ m ih =>
    intro hm
    obtain ⟨ivs, hl, hs⟩ := ih (by omega)
    have hp := repeat_word_peek n (n - (m + 1)) (by omega)
    refine ⟨(2 * (n - (m + 1)), 2 * (n - (m + 1)) + 1) :: ivs, by simp [hl], ?_⟩
    refine Scan.cons _ _ _ _ (le_refl _) (fun k a b => by omega) (by omega)
      (by rw [repeat_word_length]; omega) ?_ ?_ ?_
    · intro k a b
      have : k = 2 * (n - (m + 1)) := by omega
      rw [this, hp.1]; decide
    · right
      rw [hp.2]; decide
    · have e : 2 * (n - (m + 1)) + 1 + 1 = 2 * (n - m) := by omega
      rw [e]; exact hs

theorem repeat_word_tokens (n : Nat) : (spec_tokens (cstr (repeat_word n))).length = n := by
  rw [cstr_eq_self _ (repeat_word_nul n)]
  obtain ⟨ivs, hl, hs⟩ := repeat_word_scan n n (le_refl _)
  rw [Nat.sub_self] at hs
  have := scan_eq_spec _ ivs hs
  simp only [spec_tokens, List.length_map]
  rw [← this, hl]

theorem overflow_line_tokens : (spec_tokens (cstr overflow_line)).length = 2147483584 :=
  repeat_word_tokens 2147483584

theorem split_line_overflow (line : List Char)
    (hn : INT_MAX - 63 ≤ (spec_tokens (cstr line)).length) :
    lsh_split_line (fun _ => true) line = some SplitResult.int_overflow := by
  rcases split_line_cases (fun _ => true) line with ⟨_, k, hk⟩ | ⟨h, _⟩ | ⟨_, _, _, h, _⟩
  · simp at hk
  · exact h
  · omega

theorem overflow_line_count : INT_MAX - 63 ≤ (spec_tokens (cstr overflow_line)).length :=
  le_of_eq overflow_line_tokens.symm

example : lsh_split_line (fun _ => true) overflow_line = some SplitResult.int_overflow :=
  split_line_overflow overflow_line overflow_line_count

theorem mem_peek (l : List Char) (c : Char) (h : c ∈ l) : ∃ k, k < l.length ∧ peek l k = c := by
  obtain ⟨k, hk, e⟩ := List.mem_iff_getElem.1 h
  exact ⟨k, hk, by rw [peek_eq_getElem _ _ hk, e]⟩

/-- A token of the spec is not empty and holds no delimiter. -/
theorem slice_token (txt : List Char) (iv : Nat × Nat) (h : IsMaximalToken txt iv.1 iv.2) :
    slice txt iv ≠ [] ∧ ∀ c ∈ slice txt iv, c ∉ LSH_TOK_DELIM := by
  obtain ⟨a, b, c, _, _⟩ := h
  have hlen : (slice txt iv).length = iv.2 - iv.1 := by
    simp only [slice, List.length_take, List.length_drop]; omega
  refine ⟨?_, ?_⟩
  · intro hnil
    rw [hnil] at hlen
    simp at hlen
    omega
  · intro ch hch
    obtain ⟨k, hk, e⟩ := mem_peek _ _ hch
    rw [hlen] at hk
    simp only [slice] at e
    rw [peek_take _ _ _ hk, peek_drop] at e
    rw [← e]
    exact c _ (by omega) (by omega)

theorem spec_tokens_clean (txt : List Char) :
    ∀ t ∈ spec_tokens txt, t ≠ [] ∧ ∀ c ∈ t, c ∉ LSH_TOK_DELIM := by
  intro t ht
  simp only [spec_tokens, List.mem_map] at ht
  obtain ⟨iv, hiv, rfl⟩ := ht
  exact slice_token txt iv ((mem_spec_ranges txt iv).1 hiv)

/-- A text of delimiters only has no token. -/
theorem spec_ranges_blank (txt : List Char) (h : ∀ c ∈ txt, c ∈ LSH_TOK_DELIM) :
    spec_ranges txt = [] := by
  rw [List.eq_nil_iff_forall_not_mem]
  intro iv hiv
  obtain ⟨a, b, c, _, _⟩ := (mem_spec_ranges txt iv).1 hiv
  have hlt : iv.1 < txt.length := by omega
  apply c iv.1 a (le_refl _)
  rw [peek_eq_getElem _ _ hlt]
  exact h _ (List.getElem_mem _)

/-- From any state of the loop in which `position` is below `bufsize`, the
size of the allocation, no store of the loop is out of bounds. -/
theorem split_loop_in_bounds (alloc : Nat → Bool) :
    ∀ fuel st token (arr : List Slot) b p, arr.length = b → p < b →
      split_loop alloc fuel st token arr b p ≠ some SplitResult.bad_store := by
  intro fuel
  induction fuel with
  | zero => intro st token arr b p _ _; simp [split_loop]
  | succ fuel ih =>
    intro st token arr b p hlen hp
    cases token with
    | none => simp [split_loop, store_some arr p _ (by omega)]
    | some tok =>
      simp only [split_loop, store_some arr p _ (by omega)]
      split
      · simp
      · split
        · split
          · simp
          · rename_i hov
            by_cases ha : alloc ((b + LSH_TOK_BUFSIZE) * SIZEOF_PTR % SIZE_MOD) = true
            · rw [realloc_grow alloc (arr.set p (Slot.ptr tok)) b (by simp [hlen]) (by omega) ha]
              exact ih _ _ _ _ _ (by simp [hlen]) (by simp only [LSH_TOK_BUFSIZE]; omega)
            · have ha2 : alloc ((b + LSH_TOK_BUFSIZE) * SIZEOF_PTR % SIZE_MOD) = false := by
                simpa using ha
              simp [realloc, ha2]
        · exact ih _ _ _ _ _ (by simp [hlen]) (by omega)

theorem strcmp_eq_zero (a b : List Char) : strcmp a b = 0 ↔ a = b := by
  induction a generalizing b with
  | nil => cases b <;> simp [strcmp]
  | cons x xs ih =>
    cases b with
    | nil => simp [strcmp]
    | cons y ys =>
      by_cases h : x = y
      · simp [strcmp, h, ih]
      · simp only [strcmp, h, if_false, List.cons.injEq, false_and, iff_false]
        split <;> simp

theorem split_tokens_some (alloc : Nat → Bool) (line : List Char) (args : List (List Char))
    (h : split_tokens alloc line = some args) :
    ∃ arr b mem, lsh_split_line alloc line = some (SplitResult.returned arr b mem) ∧
      read_argv mem arr = some args := by
  unfold split_tokens at h
  split at h
  · rename_i arr b mem heq
    exact ⟨arr, b, mem, heq, h⟩
  · simp at h

theorem split_tokens_eq_spec (alloc : Nat → Bool) (line : List Char) (args : List (List Char))
    (h : split_tokens alloc line = some args) : args = spec_tokens (cstr line) := by
  rcases split_line_cases alloc line with ⟨g, _⟩ | ⟨g, _⟩ | ⟨arr, memf, g, _, _, _, g2⟩
  · simp [split_tokens, g] at h
  · simp [split_tokens, g] at h
  · simp only [split_tokens, g, g2, Option.some.injEq] at h
    exact h.symm

theorem execute_builtin_table : builtin_str.zip builtin_func
    = [("cd".toList, lsh_cd), ("help".toList, lsh_help), ("exit".toList, lsh_exit)] := rfl

theorem execute_other (env : Env) (arg0 : List Char) (rest : List (List Char)) (w : World)
    (h1 : arg0 ≠ "cd".toList) (h2 : arg0 ≠ "help".toList) (h3 : arg0 ≠ "exit".toList) :
    lsh_execute env (arg0 :: rest) w = lsh_launch env (arg0 :: rest) w := by
  have e1 : ¬ strcmp arg0 "cd".toList = 0 := fun h => h1 ((strcmp_eq_zero _ _).1 h)
  have e2 : ¬ strcmp arg0 "help".toList = 0 := fun h => h2 ((strcmp_eq_zero _ _).1 h)
  have e3 : ¬ strcmp arg0 "exit".toList = 0 := fun h => h3 ((strcmp_eq_zero _ _).1 h)
  simp only [lsh_execute, execute_builtin_table, dispatch, e1, e2, e3, if_false]

theorem wait_loop_calls (w : World) :
    ∀ l, (wait_loop l w).world.calls = w.calls := by
  intro l
  induction l generalizing w with
  | nil => rfl
  | cons r rest ih =>
    cases r with
    | error => rfl
    | exited c => rfl
    | signaled s => rfl
    | stopped s => simp only [wait_loop]; rw [ih]; rfl

theorem launch_calls (env : Env) (args : List (List Char)) (w : World) :
    (lsh_launch env args w).world.calls = w.calls ++ [Call.launch args] := by
  unfold lsh_launch
  cases env.fork w.forks with
  | fail => rfl
  | parent pid => simp only []; rw [wait_loop_calls]; rfl
  | child =>
    simp only []
    split <;> rfl

theorem wait_loop_stops (sigs : List Nat) (r : WaitResult) (rest : List WaitResult)
    (hr : ∀ s, r ≠ WaitResult.stopped s) :
    ∀ w, ∃ w2, wait_loop (sigs.map WaitResult.stopped ++ r :: rest) w = Res.ret 1 w2 ∧
      w2.sys = w.sys ++ List.replicate (sigs.length + 1) Sys.waitpid ∧
      w2.err = w.err ++
        (if r = WaitResult.error then [ErrOut.perror "lsh: waitpid".toList] else []) ∧
      w2.cwd = w.cwd ∧ w2.out = w.out := by
  induction sigs with
  | nil =>
    intro w
    cases r with
    | error => exact ⟨_, rfl, rfl, rfl, rfl, rfl⟩
    | exited c => exact ⟨_, rfl, rfl, by simp [World.syscall], rfl, rfl⟩
    | signaled s => exact ⟨_, rfl, rfl, by simp [World.syscall], rfl, rfl⟩
    | stopped s => exact absurd rfl (hr s)
  | cons s sigs ih =>
    intro w
    obtain ⟨w2, h1, h2, h3, h4, h5⟩ := ih (w.syscall Sys.waitpid)
    refine ⟨w2, h1, ?_, h3, h4, h5⟩
    rw [h2]
    simp [World.syscall, List.replicate_succ]

theorem wait_loop_all_stopped (sigs : List Nat) :
    ∀ w, ∃ w2, wait_loop (sigs.map WaitResult.stopped) w = Res.blocked w2 ∧
      w2.sys = w.sys ++ List.replicate (sigs.length + 1) Sys.waitpid ∧
      w2.err = w.err ∧ w2.cwd = w.cwd ∧ w2.out = w.out := by
  induction sigs with
  | nil => intro w; exact ⟨_, rfl, rfl, rfl, rfl, rfl⟩
  | cons s sigs ih =>
    intro w
    obtain ⟨w2, h1, h2, h3, h4, h5⟩ := ih (w.syscall Sys.waitpid)
    refine ⟨w2, h1, ?_, h3, h4, h5⟩
    rw [h2]
    simp [World.syscall, List.replicate_succ]

theorem split_tokens_overflow (alloc : Nat → Bool) (line : List Char)
    (toks : List (List Char))
    (h : lsh_split_line alloc line = some SplitResult.int_overflow) :
    split_tokens alloc line ≠ some toks := by
  simp [split_tokens, h]

/-- C1 (defect of the code): the line of `INT_MAX - 63 = 2147483584` words
`"a a ... a "` has that many tokens, yet `lsh_split_line` does not return them
although every allocation succeeds: when `position` reaches `bufsize`, the
addition `bufsize += LSH_TOK_BUFSIZE` leaves the range of `int`. -/
theorem overflow_line_not_tokenized :
    (spec_tokens (cstr overflow_line)).length = 2147483584 ∧
    lsh_split_line (fun _ => true) overflow_line = some SplitResult.int_overflow ∧
    split_tokens (fun _ => true) overflow_line ≠ some (spec_tokens (cstr overflow_line)) := by
  have h := split_line_overflow overflow_line overflow_line_count
  exact ⟨overflow_line_tokens, h, split_tokens_overflow _ _ _ h⟩

/-- Where C1 holds: when no allocation fails and the text of the line (the
bytes before its first `NUL`) has fewer than `INT_MAX - 63` tokens,
`lsh_split_line` returns an array that holds, from left to right, exactly the maximal non-empty
delimiter-free substrings of the text, followed by the `NULL` terminator; and
the line `"echo  a   b\tc"` yields `["echo", "a", "b", "c"]`. -/
theorem split_line_returns_spec_tokens (alloc : Nat → Bool) (line : List Char)
    (halloc : ∀ k, alloc k = true)
    (hcount : (spec_tokens (cstr line)).length < INT_MAX - 63) :
    (∃ arr bufsize mem,
      lsh_split_line alloc line = some (SplitResult.returned arr bufsize mem) ∧
      read_argv mem arr = some (spec_tokens (cstr line)) ∧
      arr.get? (spec_tokens (cstr line)).length = some Slot.null) ∧
    split_tokens alloc "echo  a   b\tc".toList
      = some ["echo".toList, "a".toList, "b".toList, "c".toList] := by
  refine ⟨?_, ?_⟩
  · rcases split_line_cases alloc line with ⟨_, k, hk⟩ | ⟨_, h⟩ | ⟨arr, memf, g, _, _, g3, g4⟩
    · rw [halloc k] at hk; exact absurd hk (by simp)
    · omega
    · exact ⟨arr, _, memf, g, g4, g3⟩
  · have e : alloc = fun _ => true := funext halloc
    rw [e]
    decide

/-- The preceding theorem on the line `"ls -l /tmp"`. -/
theorem split_line_returns_spec_tokens_witness :
    (∀ k, (fun _ : Nat => true) k = true) ∧
    (spec_tokens (cstr "ls -l /tmp".toList)).length < INT_MAX - 63 ∧
    (∃ arr bufsize mem,
      lsh_split_line (fun _ => true) "ls -l /tmp".toList
        = some (SplitResult.returned arr bufsize mem) ∧
      read_argv mem arr = some (spec_tokens (cstr "ls -l /tmp".toList)) ∧
      arr.get? (spec_tokens (cstr "ls -l /tmp".toList)).length = some Slot.null) ∧
    spec_tokens (cstr "ls -l /tmp".toList) = ["ls".toList, "-l".toList, "/tmp".toList] :=
  ⟨fun _ => rfl, by decide,
    (split_line_returns_spec_tokens (fun _ => true) "ls -l /tmp".toList (fun _ => rfl) (by decide)).1,
    by decide⟩

/-- C2: every token of the sequence that `lsh_split_line` returns is non-empty
and contains none of the delimiters space, tab, carriage return, newline, bell
(nor the terminator). -/
theorem split_line_tokens_are_clean (alloc : Nat → Bool) (line : List Char)
    (toks : List (List Char)) (h : split_tokens alloc line = some toks) :
    ∀ t ∈ toks, t ≠ [] ∧ (∀ c ∈ t, c ∉ LSH_TOK_DELIM) ∧
      ' ' ∉ t ∧ '\t' ∉ t ∧ '\r' ∉ t ∧ '\n' ∉ t ∧ Char.ofNat 7 ∉ t := by
  intro t ht
  rw [split_tokens_eq_spec alloc line toks h] at ht
  obtain ⟨h1, h2⟩ := spec_tokens_clean (cstr line) t ht
  refine ⟨h1, h2, ?_, ?_, ?_, ?_, ?_⟩ <;>
  · intro hc
    exact h2 _ hc (by decide)

/-- Witness of C2 on the line `"  cd \t\t /usr  \n"`. -/
theorem split_line_tokens_are_clean_witness :
    split_tokens (fun _ => true) "  cd \t\t /usr  \n".toList = some ["cd".toList, "/usr".toList] ∧
    ∀ t ∈ ["cd".toList, "/usr".toList], t ≠ [] ∧ (∀ c ∈ t, c ∉ LSH_TOK_DELIM) ∧
      ' ' ∉ t ∧ '\t' ∉ t ∧ '\r' ∉ t ∧ '\n' ∉ t ∧ Char.ofNat 7 ∉ t :=
  ⟨by decide,
    split_line_tokens_are_clean (fun _ => true) "  cd \t\t /usr  \n".toList _ (by decide)⟩

/-- C3: when the text of the line consists of delimiters only (the empty line
included) and the first allocation succeeds, `lsh_split_line` returns the
array that holds only the `NULL` terminator, and `lsh_execute` on the empty
sequence returns 1 and leaves the process state as it was: no handler, no
launcher. -/
theorem blank_line_is_noop (env : Env) (line : List Char) (w : World)
    (hblank : ∀ c ∈ cstr line, c ∈ LSH_TOK_DELIM)
    (halloc : env.alloc (LSH_TOK_BUFSIZE * SIZEOF_PTR) = true) :
    (∃ arr bufsize mem,
      lsh_split_line env.alloc line = some (SplitResult.returned arr bufsize mem) ∧
      arr.get? 0 = some Slot.null) ∧
    split_tokens env.alloc line = some [] ∧
    lsh_execute env [] w = Res.ret 1 w ∧
    (lsh_execute env [] w).world.calls = w.calls := by
  obtain ⟨memf, _, _, hloop⟩ := split_loop_result env.alloc line
  have ha : env.alloc 512 = true := halloc
  have hl : lsh_split_line env.alloc line = some (SplitResult.returned
      ((List.replicate 64 Slot.junk).set 0 Slot.null) 64 memf) := by
    simp only [lsh_split_line, malloc_first, ha, if_true]
    rw [hloop, spec_ranges_blank _ hblank]
    rfl
  refine ⟨⟨_, _, _, hl, rfl⟩, ?_, rfl, rfl⟩
  simp only [split_tokens, hl]
  rfl

/-- Witness of C3 on the line `" \t \n"`. -/
theorem blank_line_is_noop_witness :
    (∀ c ∈ cstr " \t \n".toList, c ∈ LSH_TOK_DELIM) ∧
    split_tokens (fun _ => true) " \t \n".toList = some [] ∧
    lsh_execute ⟨fun _ => true, fun _ _ => none, fun _ => ForkResult.fail, fun _ => [],
      fun _ => false⟩ [] (World.init []) = Res.ret 1 (World.init []) :=
  have h := blank_line_is_noop ⟨fun _ => true, fun _ _ => none, fun _ => ForkResult.fail,
    fun _ => [], fun _ => false⟩ " \t \n".toList (World.init []) (by decide) rfl
  ⟨by decide, h.2.1, h.2.2.1⟩

/-- C4: for a non-empty token sequence whose first token is none of "cd",
"help", "exit", `lsh_execute` does exactly what `lsh_launch` does on the whole
sequence and ends as it ends (so it returns the launcher's signal), and the
only function entered is the launcher, once, with the unmodified sequence. -/
theorem lsh_execute_forwards_to_launch (env : Env) (arg0 : List Char)
    (rest : List (List Char)) (w : World)
    (h1 : arg0 ≠ "cd".toList) (h2 : arg0 ≠ "help".toList) (h3 : arg0 ≠ "exit".toList) :
    lsh_execute env (arg0 :: rest) w = lsh_launch env (arg0 :: rest) w ∧
    (lsh_execute env (arg0 :: rest) w).world.calls
      = w.calls ++ [Call.launch (arg0 :: rest)] := by
  have h := execute_other env arg0 rest w h1 h2 h3
  exact ⟨h, by rw [h]; exact launch_calls env _ w⟩

/-- Witness of C4 on `["Exit", "now"]`: the comparison is case-sensitive. -/
theorem lsh_execute_forwards_to_launch_witness :
    "Exit".toList ≠ "cd".toList ∧ "Exit".toList ≠ "help".toList ∧
    "Exit".toList ≠ "exit".toList ∧
    lsh_execute demo_env ["Exit".toList, "now".toList] (World.init [])
      = lsh_launch demo_env ["Exit".toList, "now".toList] (World.init []) ∧
    (lsh_execute demo_env ["Exit".toList, "now".toList] (World.init [])).world.calls
      = [Call.launch ["Exit".toList, "now".toList]] :=
  ⟨by decide, by decide, by decide,
    lsh_execute_forwards_to_launch demo_env "Exit".toList ["now".toList] (World.init [])
      (by decide) (by decide) (by decide)⟩

/-- C5: on a token sequence that starts with "exit", whatever follows,
`lsh_execute` returns 0 and the only function entered is `lsh_exit`; and when
the line read in an iteration of the main loop splits into such a sequence,
the loop ends after that iteration, whatever input is left, and `main` ends
the process with status 0. -/
theorem exit_stops_shell (env : Env) (rest : List (List Char)) (w : World)
    (buf : List Char) (more : List ReadResult)
    (hline : split_tokens env.alloc buf = some ("exit".toList :: rest)) :
    lsh_execute env ("exit".toList :: rest) w
      = Res.ret 0 (w.enter (Call.exit ("exit".toList :: rest))) ∧
    (lsh_execute env ("exit".toList :: rest) w).world.calls
      = w.calls ++ [Call.exit ("exit".toList :: rest)] ∧
    (lsh_execute env ("exit".toList :: rest) w).world.sys = w.sys ∧
    lsh_loop env (ReadResult.line buf :: more) w
      = Res.ret () ((w.printf "> ".toList).enter (Call.exit ("exit".toList :: rest))) ∧
    main env (ReadResult.line buf :: more) w
      = Res.exit 0 ((w.printf "> ".toList).enter (Call.exit ("exit".toList :: rest))) := by
  have hex : ∀ w0 : World, lsh_execute env ("exit".toList :: rest) w0
      = Res.ret 0 (w0.enter (Call.exit ("exit".toList :: rest))) := fun _ => rfl
  obtain ⟨arr, b, mem, g1, g2⟩ := split_tokens_some _ _ _ hline
  have hloop : lsh_loop env (ReadResult.line buf :: more) w
      = Res.ret () ((w.printf "> ".toList).enter (Call.exit ("exit".toList :: rest))) := by
    simp only [lsh_loop]
    rw [loop_while.eq_def]
    simp only [lsh_read_line, g1, g2, hex]
    rw [loop_while.eq_def]
    simp
  refine ⟨hex w, rfl, rfl, hloop, ?_⟩
  simp only [main, hloop]
  rfl

/-- Witness of C5 on the line `"exit 3 now\n"` with more input pending. -/
theorem exit_stops_shell_witness :
    split_tokens demo_env.alloc "exit 3 now\n".toList
      = some ("exit".toList :: ["3".toList, "now".toList]) ∧
    main demo_env [ReadResult.line "exit 3 now\n".toList, ReadResult.line "ls\n".toList]
        (World.init "/".toList)
      = Res.exit 0 (((World.init "/".toList).printf "> ".toList).enter
          (Call.exit ("exit".toList :: ["3".toList, "now".toList]))) :=
  ⟨by decide,
    (exit_stops_shell demo_env ["3".toList, "now".toList] (World.init "/".toList)
      "exit 3 now\n".toList [ReadResult.line "ls\n".toList] (by decide)).2.2.2.2⟩

/-- C6: on a token sequence that starts with "cd", `lsh_execute` runs `lsh_cd`.
Without a second token `lsh_cd` makes no system call, writes the usage message
to the error stream and returns 1; with a second token on which `chdir` fails
it reports the error with `perror` and returns 1; in both cases the working
directory of the process is what it was. -/
theorem lsh_cd_keeps_cwd_on_error (env : Env) (w : World) (path : List Char)
    (rest : List (List Char)) (hfail : env.chdir w.cwd path = none) :
    lsh_execute env ["cd".toList] w = lsh_cd env ["cd".toList] w ∧
    lsh_cd env ["cd".toList] w = Res.ret 1
      ((w.enter (Call.cd ["cd".toList])).eprintf
        "lsh: expected argument to \"cd\"\n".toList) ∧
    (lsh_cd env ["cd".toList] w).world.sys = w.sys ∧
    (lsh_cd env ["cd".toList] w).world.cwd = w.cwd ∧
    lsh_execute env ("cd".toList :: path :: rest) w
      = lsh_cd env ("cd".toList :: path :: rest) w ∧
    lsh_cd env ("cd".toList :: path :: rest) w = Res.ret 1
      (((w.enter (Call.cd ("cd".toList :: path :: rest))).syscall (Sys.chdir path)).perror
        "lsh".toList) ∧
    (lsh_cd env ("cd".toList :: path :: rest) w).world.cwd = w.cwd := by
  have h2 : lsh_cd env ("cd".toList :: path :: rest) w = Res.ret 1
      (((w.enter (Call.cd ("cd".toList :: path :: rest))).syscall (Sys.chdir path)).perror
        "lsh".toList) := by
    simp only [lsh_cd, List.get?, hfail]
  refine ⟨rfl, rfl, rfl, rfl, rfl, h2, ?_⟩
  rw [h2]; rfl

/-- Witness of C6 on `cd /nonexistent-path-xyz` from the directory `/home`. -/
theorem lsh_cd_keeps_cwd_on_error_witness :
    demo_env.chdir (World.init "/home".toList).cwd "/nonexistent-path-xyz".toList = none ∧
    (lsh_cd demo_env ["cd".toList] (World.init "/home".toList)).world.cwd = "/home".toList ∧
    (lsh_cd demo_env ["cd".toList, "/nonexistent-path-xyz".toList]
      (World.init "/home".toList)).world.cwd = "/home".toList :=
  have h := lsh_cd_keeps_cwd_on_error demo_env (World.init "/home".toList)
    "/nonexistent-path-xyz".toList [] rfl
  ⟨rfl, h.2.2.2.1, h.2.2.2.2.2.2⟩

set_option maxRecDepth 20000 in
/-- C7: for every argument sequence `lsh_help` returns 1 and appends to
standard output one fixed text, which does not depend on the arguments; in
that text each of "cd", "help", "exit" occurs exactly once, "cd" at offset 90,
before "help" at offset 95, before "exit" at offset 102. -/
theorem lsh_help_output (env : Env) (args : List (List Char)) (w : World) :
    lsh_help env args w = Res.ret 1 ((w.enter (Call.help args)).printf help_text) ∧
    (lsh_help env args w).world.out = w.out ++ help_text ∧
    occurrences "cd".toList help_text = [90] ∧
    occurrences "help".toList help_text = [95] ∧
    occurrences "exit".toList help_text = [102] := by
  have h : lsh_help env args w = Res.ret 1 ((w.enter (Call.help args)).printf help_text) := by
    simp [lsh_help, help_names, builtin_str, World.printf, World.enter, help_text]
  refine ⟨h, by rw [h]; rfl, by decide, by decide, by decide⟩

/-- C8: in the parent, `lsh_launch` returns 1 whatever `fork` and `waitpid`
report.  When `fork` fails it reports the error and returns having made no
`waitpid` call.  When the child was created and the `waitpid` results are any
number of "stopped" reports followed by a failure, an exit with any status or
a death by signal, it returns 1 after exactly one `waitpid` call more than
there were "stopped" reports, and a failure of `waitpid` is reported.  A
"stopped" report never ends the wait loop: after each one `waitpid` is called
again, so when all the reports are "stopped" reports `lsh_launch` makes one
call more than there are reports, stays blocked in it and does not return. -/
theorem lsh_launch_parent_continues (env : Env) (args : List (List Char)) (w : World) :
    (env.fork w.forks = ForkResult.fail →
      ∃ w2, lsh_launch env args w = Res.ret 1 w2 ∧ w2.sys = w.sys ++ [Sys.fork] ∧
        w2.err = w.err ++ [ErrOut.perror "lsh".toList]) ∧
    (∀ (pid : Nat) (sigs : List Nat) (r : WaitResult) (rest : List WaitResult),
      env.fork w.forks = ForkResult.parent pid →
      (∀ s, r ≠ WaitResult.stopped s) →
      env.waits w.forks = sigs.map WaitResult.stopped ++ r :: rest →
      ∃ w2, lsh_launch env args w = Res.ret 1 w2 ∧
        w2.sys = w.sys ++ Sys.fork :: List.replicate (sigs.length + 1) Sys.waitpid ∧
        w2.err = w.err ++
          (if r = WaitResult.error then [ErrOut.perror "lsh: waitpid".toList] else [])) ∧
    (∀ (sig : Nat) (rest : List WaitResult) (w0 : World),
      wait_loop (WaitResult.stopped sig :: rest) w0 = wait_loop rest (w0.syscall Sys.waitpid)) ∧
    (∀ (pid : Nat) (sigs : List Nat),
      env.fork w.forks = ForkResult.parent pid →
      env.waits w.forks = sigs.map WaitResult.stopped →
      (∃ w2, lsh_launch env args w = Res.blocked w2 ∧
        w2.sys = w.sys ++ Sys.fork :: List.replicate (sigs.length + 1) Sys.waitpid ∧
        w2.err = w.err) ∧
      ∀ (status : Int) (w3 : World), lsh_launch env args w ≠ Res.ret status w3) := by
  refine ⟨?_, ?_, fun _ _ _ => rfl, ?_⟩
  · intro hf
    have h : lsh_launch env args w = Res.ret 1
        (World.perror { (w.enter (Call.launch args)).syscall Sys.fork with
          forks := (w.enter (Call.launch args)).forks + 1 } "lsh".toList) := by
      simp only [lsh_launch, hf]
    exact ⟨_, h, rfl, rfl⟩
  · intro pid sigs r rest hf hr hw
    obtain ⟨w2, g1, g2, g3, _, _⟩ := wait_loop_stops sigs r rest hr
      { (w.enter (Call.launch args)).syscall Sys.fork with
        forks := (w.enter (Call.launch args)).forks + 1 }
    refine ⟨w2, ?_, ?_, ?_⟩
    · simp only [lsh_launch, hf, hw]
      exact g1
    · rw [g2]; simp [World.syscall, World.enter]
    · rw [g3]; rfl
  · intro pid sigs hf hw
    obtain ⟨w2, g1, g2, g3, _, _⟩ := wait_loop_all_stopped sigs
      { (w.enter (Call.launch args)).syscall Sys.fork with
        forks := (w.enter (Call.launch args)).forks + 1 }
    have hl : lsh_launch env args w = Res.blocked w2 := by
      simp only [lsh_launch, hf, hw]
      exact g1
    refine ⟨⟨w2, hl, ?_, ?_⟩, ?_⟩
    · rw [g2]; simp [World.syscall, World.enter]
    · rw [g3]; rfl
    · intro status w3 h
      rw [hl] at h
      exact absurd h (by simp)

/-- Witness of C8: the child is stopped once, then exits; `fork` fails; the
only report is a "stopped" report. -/
theorem lsh_launch_parent_continues_witness :
    (∃ w2, lsh_launch demo_env ["sleep".toList, "1".toList] (World.init []) = Res.ret 1 w2 ∧
      w2.sys = [Sys.fork, Sys.waitpid, Sys.waitpid]) ∧
    (∃ w2, lsh_launch { demo_env with fork := fun _ => ForkResult.fail }
        ["sleep".toList, "1".toList] (World.init []) = Res.ret 1 w2 ∧
      w2.sys = [Sys.fork]) ∧
    (∃ w2, lsh_launch { demo_env with waits := fun _ => [WaitResult.stopped 19] }
        ["sleep".toList, "1".toList] (World.init []) = Res.blocked w2 ∧
      w2.sys = [Sys.fork, Sys.waitpid, Sys.waitpid]) :=
  ⟨by
    obtain ⟨w2, h1, h2, _⟩ := (lsh_launch_parent_continues demo_env
      ["sleep".toList, "1".toList] (World.init [])).2.1 7 [19] (WaitResult.exited 0) []
      rfl (fun s => by simp) rfl
    exact ⟨w2, h1, h2⟩,
   by
    obtain ⟨w2, h1, h2, _⟩ := (lsh_launch_parent_continues
      { demo_env with fork := fun _ => ForkResult.fail }
      ["sleep".toList, "1".toList] (World.init [])).1 rfl
    exact ⟨w2, h1, h2⟩,
   by
    obtain ⟨⟨w2, h1, h2, _⟩, _⟩ := (lsh_launch_parent_continues
      { demo_env with waits := fun _ => [WaitResult.stopped 19] }
      ["sleep".toList, "1".toList] (World.init [])).2.2.2 7 [19] rfl rfl
    exact ⟨w2, h1, h2⟩⟩

/-- C9: when `getline` reports end of input, `lsh_read_line` ends the process
with status 0 and writes nothing to the error stream; when it reports a
failure without end of input, `lsh_read_line` reports the error with `perror`
and ends the process with the non-zero status `EXIT_FAILURE`; in neither case
does it return a line, and `main` ends the same way without a call of the
tokenizer, a handler or the launcher. -/
theorem lsh_read_line_end_of_input (env : Env) (w : World) (more : List ReadResult) :
    lsh_read_line ReadResult.eof w = Res.exit 0 w ∧
    (lsh_read_line ReadResult.eof w).world.err = w.err ∧
    lsh_read_line ReadResult.error w = Res.exit EXIT_FAILURE (w.perror "lsh: getline".toList) ∧
    EXIT_FAILURE ≠ 0 ∧
    (lsh_read_line ReadResult.error w).world.err
      = w.err ++ [ErrOut.perror "lsh: getline".toList] ∧
    (∀ line w2, lsh_read_line ReadResult.eof w ≠ Res.ret line w2) ∧
    (∀ line w2, lsh_read_line ReadResult.error w ≠ Res.ret line w2) ∧
    main env (ReadResult.eof :: more) w = Res.exit 0 (w.printf "> ".toList) ∧
    main env (ReadResult.error :: more) w
      = Res.exit EXIT_FAILURE ((w.printf "> ".toList).perror "lsh: getline".toList) := by
  refine ⟨rfl, rfl, rfl, by decide, rfl, ?_, ?_, ?_, ?_⟩
  · intro line w2 h; simp [lsh_read_line, EXIT_SUCCESS] at h
  · intro line w2 h; simp [lsh_read_line] at h
  · simp only [main, lsh_loop]
    rw [loop_while.eq_def]
    simp [lsh_read_line, EXIT_SUCCESS]
  · simp only [main, lsh_loop]
    rw [loop_while.eq_def]
    simp [lsh_read_line]

/-- C10 (defect of the code): for the line of `n = INT_MAX - 63` words the
capacity `64 * (n / 64 + 1)` that the claim gives is above `INT_MAX`, the
largest value `bufsize` can hold.  With every allocation succeeding the call
ends in the signed overflow of `bufsize += LSH_TOK_BUFSIZE`, reached when
`position` equals `bufsize`; whatever the allocator does, the call does not
return, so the terminator is never stored at index `n`. -/
theorem overflow_line_capacity_out_of_range :
    (spec_tokens (cstr overflow_line)).length = 2147483584 ∧
    INT_MAX < 64 * (2147483584 / 64 + 1) ∧
    lsh_split_line (fun _ => true) overflow_line = some SplitResult.int_overflow ∧
    ¬ ∃ alloc arr bufsize mem,
      lsh_split_line alloc overflow_line = some (SplitResult.returned arr bufsize mem) := by
  refine ⟨overflow_line_tokens, by decide,
    split_line_overflow overflow_line overflow_line_count, ?_⟩
  rintro ⟨alloc, arr, bufsize, mem, h⟩
  rcases split_line_cases alloc overflow_line with ⟨g, _⟩ | ⟨g, _⟩ | ⟨_, _, _, g, _⟩
  · rw [g] at h; simp at h
  · rw [g] at h; simp at h
  · have := overflow_line_count
    omega

/-- Where C10 holds: no store of `lsh_split_line` into the token array is out
of bounds: from any state of the loop with `position < bufsize`, the size of the
allocation, none is, and so none is in a call of `lsh_split_line`, which
always ends.  When it returns on a line of `n` tokens, the terminator is in
slot `n`, below the capacity, and the capacity is `bufsize = 64 * (n / 64 + 1)`.
It does return when no allocation fails and `n < INT_MAX - 63`. -/
theorem split_line_stores_in_bounds (alloc : Nat → Bool) (line : List Char) :
    (∀ fuel st token (arr : List Slot) bufsize position,
      arr.length = bufsize → position < bufsize →
      split_loop alloc fuel st token arr bufsize position ≠ some SplitResult.bad_store) ∧
    lsh_split_line alloc line ≠ some SplitResult.bad_store ∧
    lsh_split_line alloc line ≠ none ∧
    (∀ arr bufsize mem,
      lsh_split_line alloc line = some (SplitResult.returned arr bufsize mem) →
      arr.length = bufsize ∧ (spec_tokens (cstr line)).length < bufsize ∧
      bufsize = 64 * ((spec_tokens (cstr line)).length / 64 + 1) ∧
      arr.get? (spec_tokens (cstr line)).length = some Slot.null) ∧
    ((∀ k, alloc k = true) → (spec_tokens (cstr line)).length < INT_MAX - 63 →
      ∃ arr mem, lsh_split_line alloc line = some (SplitResult.returned arr
        (64 * ((spec_tokens (cstr line)).length / 64 + 1)) mem)) := by
  refine ⟨split_loop_in_bounds alloc, ?_, ?_, ?_, ?_⟩
  · rcases split_line_cases alloc line with ⟨g, _⟩ | ⟨g, _⟩ | ⟨_, _, g, _⟩ <;>
      rw [g] <;> simp
  · rcases split_line_cases alloc line with ⟨g, _⟩ | ⟨g, _⟩ | ⟨_, _, g, _⟩ <;>
      rw [g] <;> simp
  · intro arr bufsize mem h
    rcases split_line_cases alloc line with ⟨g, _⟩ | ⟨g, _⟩ | ⟨arr2, memf, g, g1, g2, g3, _⟩
    · rw [g] at h; simp at h
    · rw [g] at h; simp at h
    · rw [g] at h
      simp only [Option.some.injEq, SplitResult.returned.injEq] at h
      obtain ⟨e1, e2, _⟩ := h
      subst e1 e2
      exact ⟨g2, by omega, rfl, g3⟩
  · intro ha hn
    rcases split_line_cases alloc line with ⟨_, k, hk⟩ | ⟨_, g⟩ | ⟨arr2, memf, g, _⟩
    · rw [ha k] at hk; exact absurd hk (by simp)
    · omega
    · exact ⟨arr2, memf, g⟩

/-- The preceding theorem on two lines: `"ls -l"` returns with capacity 64, and a line of
64 words returns with capacity 128, the array having grown once. -/
theorem split_line_stores_in_bounds_witness :
    ((∀ k, (fun _ : Nat => true) k = true) ∧
      (spec_tokens (cstr "ls -l".toList)).length < INT_MAX - 63 ∧
      ∃ arr mem, lsh_split_line (fun _ => true) "ls -l".toList = some (SplitResult.returned arr
        (64 * ((spec_tokens (cstr "ls -l".toList)).length / 64 + 1)) mem)) ∧
    ((spec_tokens (cstr (repeat_word 64))).length = 64 ∧
      ∃ arr mem, lsh_split_line (fun _ => true) (repeat_word 64)
        = some (SplitResult.returned arr 128 mem)) := by
  refine ⟨⟨fun _ => rfl, by decide,
    (split_line_stores_in_bounds (fun _ => true) "ls -l".toList).2.2.2.2 (fun _ => rfl)
      (by decide)⟩, repeat_word_tokens 64, ?_⟩
  have h := (split_line_stores_in_bounds (fun _ => true) (repeat_word 64)).2.2.2.2
    (fun _ => rfl) (by rw [repeat_word_tokens 64]; decide)
  rw [repeat_word_tokens 64] at h
  exact h

end Lsh
